import Mathlib

/-!
A verification development for the RustyChunker document-chunking library
(`tiktoken_core.rs`, `text_preprocessor.rs`, `semantic_segmenter.rs`,
`chunk_merger.rs`, `chunk_overlapper.rs`, `semantic_chunker.rs`).

Modelling conventions:
* Rust strings are modelled as lists of `Char` (`Str`); `format!("{} {}", a, b)`
  becomes `a ++ ' ' :: b`; `str::len` becomes `List.length` (the claims settled
  on concrete inputs use ASCII inputs, where byte length and char length agree).
* Byte strings (`&[u8]`, `Vec<u8>`) are modelled as `List Nat`.
* The tokenizer vocabulary (`FxHashMap<Vec<u8>, Rank>`) is modelled as a lookup
  function `List Nat → Option Nat`; `HashMap::get` is exactly this lookup.
* Fallible Rust code (`Result`, indexing panics) is modelled with `Option`:
  `none` stands for the error/panic outcome.
* The components that merely *call* `CoreBPE::encode_ordinary` /
  `CoreBPE::decode` (segmenter, merger, overlapper, facade) are parametric in a
  `Tok` record holding those two functions, mirroring how the Rust code passes
  a `CoreBPE` value around as an opaque tokenizer.
-/

namespace RustyChunker

/-- Rust `String` contents, modelled as a list of characters. -/
abbrev Str := List Char

/-! ## Text preprocessor (`text_preprocessor.rs`)

`TextPreprocessor::preprocess` applies, in order:
1. `control_chars_regex.replace_all(text, "")` with class
   `[\x00-\x08\x0B\x0C\x0E-\x1F\x7F]` — a per-character filter;
2. `excessive_newlines_regex.replace_all(_, "\n\n")` with pattern
   `\n\s*\n\s*\n+` (leftmost, greedy);
3. `whitespace_cleanup_regex.replace_all(_, " ")` with pattern `[ \t]+`;
4. `str::trim`.
-/

/-- The Unicode `White_Space` property: the character set matched by the Rust
regex class `\s` (Unicode mode, the default of the `regex` crate) and trimmed
by `str::trim`. -/
def rsWhite (c : Char) : Bool :=
  c.toNat = 0x09 || c.toNat = 0x0A || c.toNat = 0x0B || c.toNat = 0x0C ||
  c.toNat = 0x0D || c.toNat = 0x20 || c.toNat = 0x85 || c.toNat = 0xA0 ||
  c.toNat = 0x1680 || (0x2000 ≤ c.toNat && c.toNat ≤ 0x200A) ||
  c.toNat = 0x2028 || c.toNat = 0x2029 || c.toNat = 0x202F ||
  c.toNat = 0x205F || c.toNat = 0x3000

/-- Membership in the removed class `[\x00-\x08\x0B\x0C\x0E-\x1F\x7F]` of
`control_chars_regex` (control characters other than `\t`, `\n`, `\r`). -/
def badCtrl (c : Char) : Bool :=
  c.toNat ≤ 0x08 || c.toNat = 0x0B || c.toNat = 0x0C ||
  (0x0E ≤ c.toNat && c.toNat ≤ 0x1F) || c.toNat = 0x7F

/-- Step 1: `control_chars_regex.replace_all(text, "")`.  The pattern is a
single-character class, so replacing every match by the empty string is a
filter. -/
def removeControl (l : Str) : Str := l.filter (fun c => !badCtrl c)

/-- `c` is a space or a tab, i.e. matches the class `[ \t]`. -/
def sptab (c : Char) : Bool := c = ' ' || c = '\t'

/-- Rewrites one maximal whitespace run `run` according to the leftmost-greedy
`replace_all` of `\n\s*\n\s*\n+` by `"\n\n"`.

Every character the pattern can consume is whitespace, so each match lies
inside a maximal whitespace run.  Within such a run a match exists iff the run
holds at least three `\n` (the pattern needs three, and `\s*` absorbs any
whitespace between them); the leftmost such match starts at the run's first
`\n`, and by greediness of the trailing `\n+` (backtracking the two `\s*` as
little as necessary) it ends just after the run's *last* `\n`.  After the
replacement no further match can start inside the rest of the run (no `\n`
remains there), so a run is rewritten at most once:
the part before the first `\n` and the part after the last `\n` survive, and
everything between them becomes `"\n\n"`. -/
def flushRun (run : Str) : Str :=
  if 3 ≤ run.count '\n' then
    run.takeWhile (fun c => !(c = '\n')) ++
      '\n' :: '\n' :: (run.reverse.takeWhile (fun c => !(c = '\n'))).reverse
  else run

/-- Scanner for step 2: accumulates the current maximal whitespace run in
`run` and flushes it through `flushRun` when a non-whitespace character (or
the end of input) is reached. -/
def collapseNlGo : Str → Str → Str
  | run, [] => flushRun run
  | run, c :: rest =>
    if rsWhite c then collapseNlGo (run ++ [c]) rest
    else flushRun run ++ c :: collapseNlGo [] rest

/-- Step 2: `excessive_newlines_regex.replace_all(_, "\n\n")` for the pattern
`\n\s*\n\s*\n+` (see `flushRun`). -/
def collapseNewlines (l : Str) : Str := collapseNlGo [] l

/-- Scanner for step 3: `inRun` records whether the previous character was
part of a space/tab run whose single replacement space has already been
emitted. -/
def collapseSpGo : Bool → Str → Str
  | _, [] => []
  | inRun, c :: rest =>
    if sptab c then
      if inRun then collapseSpGo true rest else ' ' :: collapseSpGo true rest
    else c :: collapseSpGo false rest

/-- Step 3: `whitespace_cleanup_regex.replace_all(_, " ")`: every maximal run
matching `[ \t]+` is replaced by a single space. -/
def collapseSpaces (l : Str) : Str := collapseSpGo false l

/-- Leading-whitespace removal of `str::trim`. -/
def trimLeft (l : Str) : Str := l.dropWhile rsWhite

/-- Trailing-whitespace removal of `str::trim`. -/
def trimRight (l : Str) : Str := (l.reverse.dropWhile rsWhite).reverse

/-- `str::trim`: removes leading and trailing Unicode whitespace. -/
def trim (l : Str) : Str := trimRight (trimLeft l)

/-- `TextPreprocessor::preprocess`: the four cleaning steps in source order. -/
def preprocess (text : Str) : Str :=
  trim (collapseSpaces (collapseNewlines (removeControl text)))

/-! Occurrence scanners used to state the preprocessor properties. -/

/-- The list starts with the three-character substring `"\n\n\n"`. -/
def startsNNN (l : Str) : Bool := l.take 3 == ['\n', '\n', '\n']

/-- The list contains the substring `"\n\n\n"` (scan of every suffix). -/
def hasNNN : Str → Bool
  | [] => false
  | c :: rest => startsNNN (c :: rest) || hasNNN rest

/-- The list starts with two adjacent space-or-tab characters. -/
def startsST (l : Str) : Bool :=
  match l with
  | a :: b :: _ => sptab a && sptab b
  | _ => false

/-- The list contains a run of two or more space/tab characters. -/
def hasSpTabRun : Str → Bool
  | [] => false
  | c :: rest => startsST (c :: rest) || hasSpTabRun rest

/-! ### Generic list helpers -/

theorem dropWhile_eq_drop_aux {α : Type} (p : α → Bool) :
    ∀ l : List α, l.dropWhile p = l.drop (l.takeWhile p).length := by
  intro l
  induction l with
  | nil => rfl
  | cons a l ih =>
    by_cases h : p a = true
    · rw [List.dropWhile_cons_of_pos h, List.takeWhile_cons_of_pos h]
      simpa using ih
    · rw [List.dropWhile_cons_of_neg h, List.takeWhile_cons_of_neg h]
      rfl

theorem dropWhile_head_not {α : Type} (p : α → Bool) :
    ∀ (l : List α) c r, l.dropWhile p = c :: r → p c = false := by
  intro l
  induction l with
  | nil => intro c r h; simp at h
  | cons a l ih =>
    intro c r h
    by_cases ha : p a = true
    · rw [List.dropWhile_cons_of_pos ha] at h
      exact ih c r h
    · rw [List.dropWhile_cons_of_neg ha] at h
      cases h
      simpa using ha

theorem dropWhile_of_head_not {α : Type} (p : α → Bool) (l : List α)
    (h : ∀ c r, l = c :: r → p c = false) : l.dropWhile p = l := by
  cases l with
  | nil => rfl
  | cons a l => exact List.dropWhile_cons_of_neg (by simp [h a l rfl])

theorem take_eq_cons_imp {α : Type} (l : List α) (n : Nat) (c : α) (r : List α)
    (h : l.take n = c :: r) : ∃ r2, l = c :: r2 := by
  refine ⟨r ++ l.drop n, ?_⟩
  conv_lhs => rw [← List.take_append_drop n l]
  rw [h]
  rfl

/-! ### The `"\n\n\n"` scanner -/

theorem startsNNN_iff (l : Str) :
    startsNNN l = true ↔ ∃ t, l = '\n' :: '\n' :: '\n' :: t := by
  unfold startsNNN
  rw [beq_iff_eq]
  constructor
  · intro h
    refine ⟨l.drop 3, ?_⟩
    conv_lhs => rw [← List.take_append_drop 3 l]
    rw [h]
    rfl
  · rintro ⟨t, rfl⟩
    rfl

theorem startsNNN_of_ne (c : Char) (r : Str) (hc : ¬ c = '\n') :
    startsNNN (c :: r) = false := by
  rw [Bool.eq_false_iff]
  intro h
  rcases (startsNNN_iff _).1 h with ⟨t, ht⟩
  exact hc (List.cons.inj ht).1

theorem startsNNN_short (l : Str) (h : l.length < 3) : startsNNN l = false := by
  rw [Bool.eq_false_iff]
  intro hT
  rcases (startsNNN_iff _).1 hT with ⟨t, rfl⟩
  simp at h
  omega

theorem startsNNN_cons3 (a b d : Char) (r : Str) :
    startsNNN (a :: b :: d :: r) = startsNNN [a, b, d] := by
  simp [startsNNN, List.take]

theorem three_le_count_of_hasNNN : ∀ l : Str, hasNNN l = true → 3 ≤ l.count '\n' := by
  intro l
  induction l with
  | nil => intro h; simp [hasNNN] at h
  | cons c rest ih =>
    intro h
    rw [hasNNN, Bool.or_eq_true] at h
    rcases h with h | h
    · rcases (startsNNN_iff _).1 h with ⟨t, ht⟩
      obtain ⟨h1, h2⟩ := List.cons.inj ht
      subst h1
      rw [h2]
      simp [List.count_cons]
    · have := ih h
      rw [List.count_cons]
      omega

theorem hasNNN_of_count_lt (l : Str) (h : l.count '\n' < 3) : hasNNN l = false := by
  rw [Bool.eq_false_iff]
  intro hT
  exact absurd (three_le_count_of_hasNNN l hT) (by omega)

theorem hasNNN_of_no_nl (l : Str) (h : ∀ a ∈ l, ¬ a = '\n') : hasNNN l = false := by
  refine hasNNN_of_count_lt l ?_
  have : l.count '\n' = 0 := List.count_eq_zero.2 (fun hm => h _ hm rfl)
  omega

theorem hasNNN_tail (c : Char) (rest : Str) (h : hasNNN (c :: rest) = false) :
    hasNNN rest = false := by
  rw [hasNNN, Bool.or_eq_false_iff] at h
  exact h.2

theorem hasNNN_append_nonl (A M : Str) (hA : ∀ a ∈ A, ¬ a = '\n') :
    hasNNN (A ++ M) = hasNNN M := by
  induction A with
  | nil => rfl
  | cons a A ih =>
    rw [List.cons_append, hasNNN, startsNNN_of_ne a _ (hA a (by simp)), Bool.false_or]
    exact ih (fun x hx => hA x (by simp [hx]))

theorem startsNNN_append (X : Str) (c : Char) (Y : Str) (hc : ¬ c = '\n') :
    startsNNN (X ++ c :: Y) = startsNNN X := by
  match X with
  | [] =>
    rw [List.nil_append, startsNNN_of_ne c Y hc, startsNNN_short [] (by simp)]
  | [a] =>
    rw [startsNNN_short [a] (by simp)]
    rw [Bool.eq_false_iff]
    intro h
    rcases (startsNNN_iff _).1 h with ⟨t, ht⟩
    obtain ⟨_, ht⟩ := List.cons.inj ht
    exact hc (List.cons.inj ht).1
  | [a, b] =>
    rw [startsNNN_short [a, b] (by simp)]
    rw [Bool.eq_false_iff]
    intro h
    rcases (startsNNN_iff _).1 h with ⟨t, ht⟩
    obtain ⟨_, ht⟩ := List.cons.inj ht
    obtain ⟨_, ht⟩ := List.cons.inj ht
    exact hc (List.cons.inj ht).1
  | a :: b :: d :: t =>
    rw [show (a :: b :: d :: t) ++ c :: Y = a :: b :: d :: (t ++ c :: Y) from rfl]
    rw [startsNNN_cons3 a b d (t ++ c :: Y), startsNNN_cons3 a b d t]

theorem hasNNN_append_mid (X : Str) (c : Char) (Y : Str) (hc : ¬ c = '\n') :
    hasNNN (X ++ c :: Y) = (hasNNN X || hasNNN Y) := by
  induction X with
  | nil =>
    simp only [List.nil_append, hasNNN, startsNNN_of_ne c Y hc, Bool.false_or]
  | cons a X ih =>
    have h1 : hasNNN ((a :: X) ++ c :: Y) =
        (startsNNN ((a :: X) ++ c :: Y) || hasNNN (X ++ c :: Y)) := rfl
    have h2 : hasNNN (a :: X) = (startsNNN (a :: X) || hasNNN X) := rfl
    rw [h1, h2, startsNNN_append (a :: X) c Y hc, ih, Bool.or_assoc]

theorem mem_takeWhile_ne_nl (run : Str) (a : Char)
    (ha : a ∈ run.takeWhile (fun c => !(c = '\n'))) : ¬ a = '\n' := by
  have := List.mem_takeWhile_imp ha
  simpa using this

theorem hasNNN_flushRun (run : Str) : hasNNN (flushRun run) = false := by
  unfold flushRun
  split
  · next hcnt =>
    set A := run.takeWhile (fun c => !(c = '\n')) with hA
    set B := (run.reverse.takeWhile (fun c => !(c = '\n'))).reverse with hB
    have hAn : ∀ a ∈ A, ¬ a = '\n' := fun a ha => mem_takeWhile_ne_nl run a ha
    have hBn : ∀ a ∈ B, ¬ a = '\n' := by
      intro a ha
      rw [hB, List.mem_reverse] at ha
      exact mem_takeWhile_ne_nl run.reverse a ha
    rw [hasNNN_append_nonl A _ hAn]
    have e1 : hasNNN ('\n' :: '\n' :: B) = (startsNNN ('\n' :: '\n' :: B) ||
        (startsNNN ('\n' :: B) || hasNNN B)) := rfl
    rw [e1]
    have hB0 : hasNNN B = false := hasNNN_of_no_nl B hBn
    have hS1 : startsNNN ('\n' :: B) = false := by
      rw [Bool.eq_false_iff]
      intro h
      rcases (startsNNN_iff _).1 h with ⟨t, ht⟩
      obtain ⟨_, ht⟩ := List.cons.inj ht
      exact hBn '\n' (by rw [ht]; simp) rfl
    have hS2 : startsNNN ('\n' :: '\n' :: B) = false := by
      rw [Bool.eq_false_iff]
      intro h
      rcases (startsNNN_iff _).1 h with ⟨t, ht⟩
      obtain ⟨_, ht⟩ := List.cons.inj ht
      obtain ⟨_, ht⟩ := List.cons.inj ht
      exact hBn '\n' (by rw [ht]; simp) rfl
    rw [hB0, hS1, hS2]
    rfl
  · next hcnt =>
    exact hasNNN_of_count_lt run (by omega)

theorem rsWhite_nl : rsWhite '\n' = true := by decide

theorem hasNNN_collapseNlGo : ∀ (rest run : Str), hasNNN (collapseNlGo run rest) = false := by
  intro rest
  induction rest with
  | nil => intro run; exact hasNNN_flushRun run
  | cons c rest ih =>
    intro run
    simp only [collapseNlGo]
    split
    · exact ih (run ++ [c])
    · next hc =>
      have hcn : ¬ c = '\n' := by
        intro h
        rw [h, rsWhite_nl] at hc
        simp at hc
      rw [hasNNN_append_mid _ c _ hcn, hasNNN_flushRun, ih [], Bool.or_self]

/-! ### The space/tab-run scanner -/

theorem startsST_iff (l : Str) :
    startsST l = true ↔ ∃ a b t, l = a :: b :: t ∧ sptab a = true ∧ sptab b = true := by
  match l with
  | [] => simp [startsST]
  | [a] => simp [startsST]
  | a :: b :: t =>
    simp only [startsST, Bool.and_eq_true]
    constructor
    · rintro ⟨ha, hb⟩
      exact ⟨a, b, t, rfl, ha, hb⟩
    · rintro ⟨a2, b2, t2, heq, ha, hb⟩
      obtain ⟨h1, heq⟩ := List.cons.inj heq
      obtain ⟨h2, _⟩ := List.cons.inj heq
      subst h1; subst h2
      exact ⟨ha, hb⟩

theorem hasSpTabRun_tail (c : Char) (rest : Str) (h : hasSpTabRun (c :: rest) = false) :
    hasSpTabRun rest = false := by
  rw [hasSpTabRun, Bool.or_eq_false_iff] at h
  exact h.2

theorem sptab_nl : sptab '\n' = false := by decide

theorem collapseSpGo_true_head :
    ∀ (l : Str) (c : Char) (r : Str), collapseSpGo true l = c :: r → sptab c = false := by
  intro l
  induction l with
  | nil => intro c r h; simp [collapseSpGo] at h
  | cons a l ih =>
    intro c r h
    simp only [collapseSpGo] at h
    by_cases ha : sptab a = true
    · rw [if_pos ha] at h
      simp only [if_true, ite_true] at h
      exact ih c r h
    · rw [if_neg ha] at h
      obtain ⟨h1, _⟩ := List.cons.inj h
      subst h1
      simpa using ha

theorem hasSpTabRun_collapseSpGo :
    ∀ (l : Str) (b : Bool), hasSpTabRun (collapseSpGo b l) = false := by
  intro l
  induction l with
  | nil => intro b; cases b <;> rfl
  | cons a l ih =>
    intro b
    simp only [collapseSpGo]
    by_cases ha : sptab a = true
    · rw [if_pos ha]
      cases b with
      | true => rw [if_pos rfl]; exact ih true
      | false =>
        rw [if_neg (by simp)]
        cases hm : collapseSpGo true l with
        | nil => rfl
        | cons d m =>
          have e : hasSpTabRun (' ' :: d :: m) =
              (startsST (' ' :: d :: m) || hasSpTabRun (d :: m)) := rfl
          rw [e]
          have hd : sptab d = false := collapseSpGo_true_head l d m hm
          have hst : startsST (' ' :: d :: m) = false := by
            simp [startsST, hd]
          rw [hst, ← hm, ih true]
          rfl
    · rw [if_neg ha]
      cases hm : collapseSpGo false l with
      | nil =>
        have e : hasSpTabRun [a] = false := rfl
        exact e
      | cons d m =>
        have e : hasSpTabRun (a :: d :: m) =
            (startsST (a :: d :: m) || hasSpTabRun (d :: m)) := rfl
        rw [e]
        have ha2 : sptab a = false := Bool.eq_false_iff.mpr ha
        have hst : startsST (a :: d :: m) = false := by
          simp [startsST, ha2]
        rw [hst, ← hm, ih false]
        rfl

theorem collapseSpGo_two_nl :
    ∀ (l : Str) (t : Str), collapseSpGo false l = '\n' :: '\n' :: t →
      ∃ t2, l = '\n' :: '\n' :: t2 := by
  intro l
  match l with
  | [] => intro t h; simp [collapseSpGo] at h
  | a :: l2 =>
    intro t h
    simp only [collapseSpGo] at h
    by_cases ha : sptab a = true
    · rw [if_pos ha, if_neg (by simp)] at h
      obtain ⟨h1, _⟩ := List.cons.inj h
      exact absurd h1 (by decide)
    · rw [if_neg ha] at h
      obtain ⟨h1, h2⟩ := List.cons.inj h
      subst h1
      match l2 with
      | [] => simp [collapseSpGo] at h2
      | a2 :: l3 =>
        simp only [collapseSpGo] at h2
        by_cases ha2 : sptab a2 = true
        · rw [if_pos ha2, if_neg (by simp)] at h2
          obtain ⟨h1, _⟩ := List.cons.inj h2
          exact absurd h1 (by decide)
        · rw [if_neg ha2] at h2
          obtain ⟨h1, _⟩ := List.cons.inj h2
          subst h1
          exact ⟨l3, rfl⟩

theorem hasNNN_collapseSpGo :
    ∀ (l : Str) (b : Bool), hasNNN l = false → hasNNN (collapseSpGo b l) = false := by
  intro l
  induction l with
  | nil => intro b _; cases b <;> rfl
  | cons a l ih =>
    intro b h
    have htail : hasNNN l = false := hasNNN_tail a l h
    simp only [collapseSpGo]
    by_cases ha : sptab a = true
    · rw [if_pos ha]
      have hsp : hasNNN (' ' :: collapseSpGo true l) =
          (startsNNN (' ' :: collapseSpGo true l) || hasNNN (collapseSpGo true l)) := rfl
      cases b with
      | true => rw [if_pos rfl]; exact ih true htail
      | false =>
        rw [if_neg (by simp), hsp, startsNNN_of_ne ' ' _ (by decide), ih true htail]
        rfl
    · rw [if_neg ha]
      have hcons : hasNNN (a :: collapseSpGo false l) =
          (startsNNN (a :: collapseSpGo false l) || hasNNN (collapseSpGo false l)) := rfl
      rw [hcons, ih false htail, Bool.or_false]
      by_cases han : a = '\n'
      · subst han
        rw [Bool.eq_false_iff]
        intro hs
        rcases (startsNNN_iff _).1 hs with ⟨t, ht⟩
        obtain ⟨_, ht⟩ := List.cons.inj ht
        rcases collapseSpGo_two_nl l t ht with ⟨t2, rfl⟩
        have : startsNNN ('\n' :: '\n' :: '\n' :: t2) = true :=
          (startsNNN_iff _).2 ⟨t2, rfl⟩
        rw [hasNNN, this] at h
        simp at h
      · exact startsNNN_of_ne a _ han

/-! ### Trim: representation and preservation lemmas -/

theorem trimRight_eq_take (l : Str) :
    trimRight l = l.take (l.length - (l.reverse.takeWhile rsWhite).length) := by
  unfold trimRight
  rw [dropWhile_eq_drop_aux rsWhite l.reverse, List.drop_reverse, List.reverse_reverse]

theorem hasNNN_take (l : Str) (n : Nat) (h : hasNNN l = false) :
    hasNNN (l.take n) = false := by
  induction l generalizing n with
  | nil => simpa using h
  | cons c rest ih =>
    cases n with
    | zero => rfl
    | succ m =>
      have e : hasNNN (c :: rest.take m) =
          (startsNNN (c :: rest.take m) || hasNNN (rest.take m)) := rfl
      have htail : hasNNN rest = false := hasNNN_tail c rest h
      rw [List.take_succ_cons, e, ih m htail, Bool.or_false]
      rw [Bool.eq_false_iff]
      intro hs
      rcases (startsNNN_iff _).1 hs with ⟨t, ht⟩
      obtain ⟨h1, httk⟩ := List.cons.inj ht
      subst h1
      have hr : rest = '\n' :: '\n' :: (t ++ rest.drop m) := by
        conv_lhs => rw [← List.take_append_drop m rest]
        rw [httk]
        rfl
      have hstart : startsNNN ('\n' :: rest) = true := by
        rw [hr]
        exact (startsNNN_iff _).2 ⟨_, rfl⟩
      rw [hasNNN, hstart] at h
      simp at h

theorem hasNNN_dropWhile (p : Char → Bool) (l : Str) (h : hasNNN l = false) :
    hasNNN (l.dropWhile p) = false := by
  induction l with
  | nil => simpa using h
  | cons c rest ih =>
    by_cases hc : p c = true
    · rw [List.dropWhile_cons_of_pos hc]
      exact ih (hasNNN_tail c rest h)
    · rw [List.dropWhile_cons_of_neg hc]
      exact h

theorem hasSpTabRun_take (l : Str) (n : Nat) (h : hasSpTabRun l = false) :
    hasSpTabRun (l.take n) = false := by
  induction l generalizing n with
  | nil => simpa using h
  | cons c rest ih =>
    cases n with
    | zero => rfl
    | succ m =>
      have e : hasSpTabRun (c :: rest.take m) =
          (startsST (c :: rest.take m) || hasSpTabRun (rest.take m)) := rfl
      rw [List.take_succ_cons, e, ih m (hasSpTabRun_tail c rest h), Bool.or_false]
      rw [Bool.eq_false_iff]
      intro hs
      rcases (startsST_iff _).1 hs with ⟨a, b, t, ht, hsa, hsb⟩
      obtain ⟨h1, httk⟩ := List.cons.inj ht
      have hr : rest = b :: (t ++ rest.drop m) := by
        conv_lhs => rw [← List.take_append_drop m rest]
        rw [httk]
        rfl
      have hstart : startsST (c :: rest) = true := by
        rw [hr]
        subst h1
        simp [startsST, hsa, hsb]
      rw [hasSpTabRun, hstart] at h
      simp at h

theorem hasSpTabRun_dropWhile (p : Char → Bool) (l : Str) (h : hasSpTabRun l = false) :
    hasSpTabRun (l.dropWhile p) = false := by
  induction l with
  | nil => simpa using h
  | cons c rest ih =>
    by_cases hc : p c = true
    · rw [List.dropWhile_cons_of_pos hc]
      exact ih (hasSpTabRun_tail c rest h)
    · rw [List.dropWhile_cons_of_neg hc]
      exact h

theorem hasNNN_trim (l : Str) (h : hasNNN l = false) : hasNNN (trim l) = false := by
  unfold trim trimLeft
  rw [trimRight_eq_take]
  exact hasNNN_take _ _ (hasNNN_dropWhile rsWhite l h)

theorem hasSpTabRun_trim (l : Str) (h : hasSpTabRun l = false) :
    hasSpTabRun (trim l) = false := by
  unfold trim trimLeft
  rw [trimRight_eq_take]
  exact hasSpTabRun_take _ _ (hasSpTabRun_dropWhile rsWhite l h)

/-! ### Character provenance (for the control-character property) -/

theorem mem_flushRun (run : Str) (a : Char) (ha : a ∈ flushRun run) :
    a ∈ run ∨ a = '\n' := by
  unfold flushRun at ha
  by_cases hcnt : 3 ≤ run.count '\n'
  · rw [if_pos hcnt] at ha
    simp only [List.mem_append, List.mem_cons, List.mem_reverse] at ha
    rcases ha with hA | hnl | hnl | hB
    · exact Or.inl ((List.takeWhile_sublist _).mem hA)
    · exact Or.inr hnl
    · exact Or.inr hnl
    · have h2 : a ∈ run.reverse := (List.takeWhile_sublist _).mem hB
      exact Or.inl (List.mem_reverse.1 h2)
  · rw [if_neg hcnt] at ha
    exact Or.inl ha

theorem mem_collapseNlGo :
    ∀ (rest run : Str) (a : Char), a ∈ collapseNlGo run rest →
      a ∈ run ∨ a ∈ rest ∨ a = '\n' := by
  intro rest
  induction rest with
  | nil =>
    intro run a ha
    rcases mem_flushRun run a ha with h | h
    · exact Or.inl h
    · exact Or.inr (Or.inr h)
  | cons c rest ih =>
    intro run a ha
    simp only [collapseNlGo] at ha
    split at ha
    · rcases ih (run ++ [c]) a ha with h | h | h
      · rcases List.mem_append.1 h with h2 | h2
        · exact Or.inl h2
        · exact Or.inr (Or.inl (by simpa using Or.inl (List.mem_singleton.1 h2)))
      · exact Or.inr (Or.inl (List.mem_cons_of_mem c h))
      · exact Or.inr (Or.inr h)
    · rcases List.mem_append.1 ha with h | h
      · rcases mem_flushRun run a h with h2 | h2
        · exact Or.inl h2
        · exact Or.inr (Or.inr h2)
      · rcases h with _ | ⟨_, h⟩
        · exact Or.inr (Or.inl (List.mem_cons_self c rest))
        rcases ih [] a h with h2 | h2 | h2
        · simp at h2
        · exact Or.inr (Or.inl (List.mem_cons_of_mem c h2))
        · exact Or.inr (Or.inr h2)

theorem mem_collapseSpGo :
    ∀ (l : Str) (b : Bool) (a : Char), a ∈ collapseSpGo b l → a ∈ l ∨ a = ' ' := by
  intro l
  induction l with
  | nil => intro b a ha; cases b <;> simp [collapseSpGo] at ha
  | cons c l ih =>
    intro b a ha
    simp only [collapseSpGo] at ha
    by_cases hc : sptab c = true
    · rw [if_pos hc] at ha
      cases b with
      | true =>
        simp only [if_true, ite_true] at ha
        rcases ih true a ha with h | h
        · exact Or.inl (List.mem_cons_of_mem c h)
        · exact Or.inr h
      | false =>
        simp only [Bool.false_eq_true, if_false, ite_false] at ha
        rcases ha with _ | ⟨_, ha⟩
        · exact Or.inr rfl
        rcases ih true a ha with h | h
        · exact Or.inl (List.mem_cons_of_mem c h)
        · exact Or.inr h
    · rw [if_neg hc] at ha
      rcases ha with _ | ⟨_, ha⟩
      · exact Or.inl (List.mem_cons_self c l)
      rcases ih false a ha with h | h
      · exact Or.inl (List.mem_cons_of_mem c h)
      · exact Or.inr h

theorem mem_trim (l : Str) (a : Char) (ha : a ∈ trim l) : a ∈ l := by
  unfold trim trimLeft at ha
  rw [trimRight_eq_take] at ha
  exact (List.dropWhile_sublist rsWhite).mem ((List.take_sublist _ _).mem ha)

/-! ### Assembled preprocessor facts (helpers shared by C6 and C3) -/

theorem preprocess_no_nnn (x : Str) : hasNNN (preprocess x) = false := by
  unfold preprocess collapseSpaces collapseNewlines
  exact hasNNN_trim _ (hasNNN_collapseSpGo _ false (hasNNN_collapseNlGo _ []))

theorem preprocess_no_sptab_run (x : Str) : hasSpTabRun (preprocess x) = false := by
  unfold preprocess collapseSpaces
  exact hasSpTabRun_trim _ (hasSpTabRun_collapseSpGo _ false)

theorem preprocess_no_ctrl (x : Str) :
    (preprocess x).all (fun c => !badCtrl c) = true := by
  rw [List.all_eq_true]
  intro a ha
  have h1 : a ∈ collapseSpaces (collapseNewlines (removeControl x)) := mem_trim _ a ha
  unfold collapseSpaces at h1
  rcases mem_collapseSpGo _ false a h1 with h2 | h2
  · unfold collapseNewlines at h2
    rcases mem_collapseNlGo _ [] a h2 with h3 | h3 | h3
    · simp at h3
    · unfold removeControl at h3
      rcases List.mem_filter.1 h3 with ⟨_, hgood⟩
      exact hgood
    · subst h3; decide
  · subst h2; decide

theorem trim_idem (l : Str) : trim (trim l) = trim l := by
  unfold trim
  set x := trimLeft l with hx
  have hA : trimLeft (trimRight x) = trimRight x := by
    unfold trimLeft
    refine dropWhile_of_head_not rsWhite (trimRight x) ?_
    intro c r h
    rw [trimRight_eq_take] at h
    rcases take_eq_cons_imp x _ c r h with ⟨r2, hx2⟩
    exact dropWhile_head_not rsWhite l c r2 (by rw [← hx2]; exact hx.symm ▸ rfl)
  rw [hA]
  unfold trimRight
  rw [List.reverse_reverse]
  have : (x.reverse.dropWhile rsWhite).dropWhile rsWhite = x.reverse.dropWhile rsWhite := by
    refine dropWhile_of_head_not rsWhite _ ?_
    intro c r h
    exact dropWhile_head_not rsWhite x.reverse c r h
  rw [this]

theorem preprocess_trimmed (x : Str) : trim (preprocess x) = preprocess x := by
  unfold preprocess
  exact trim_idem _

/-- **C6**: for every input `x`, `preprocess(x)` contains no occurrence of the
substring `"\n\n\n"`, no run of two or more consecutive space/tab characters,
and no control characters other than tab, newline and carriage return — the
control characters being the set the spec itself enumerates in §4.C
(`U+0000..U+0008, U+000B, U+000C, U+000E..U+001F, U+007F`, i.e. `badCtrl`);
and the result carries no leading or trailing whitespace (it is its own
`trim`). -/
theorem c6_preprocess_clean (x : Str) :
    hasNNN (preprocess x) = false ∧
    hasSpTabRun (preprocess x) = false ∧
    (preprocess x).all (fun c => !badCtrl c) = true ∧
    trim (preprocess x) = preprocess x :=
  ⟨preprocess_no_nnn x, preprocess_no_sptab_run x, preprocess_no_ctrl x,
    preprocess_trimmed x⟩

/-! ## The chunking pipeline

`semantic_segmenter.rs`, `chunk_merger.rs`, `chunk_overlapper.rs` and
`semantic_chunker.rs` use the tokenizer only through
`CoreBPE::encode_ordinary` (for counting) and `CoreBPE::decode` (for the
overlap text), so they are modelled parametrically in those two functions. -/

/-- The tokenizer interface seen by the chunking pipeline: the `CoreBPE`
methods `encode_ordinary` and `decode`; `decode`'s `Err(_)` outcome is
`none`. -/
structure Tok where
  encode : Str → List Nat
  decode : List Nat → Option Str

/-- `semantic_segmenter::Segment`. -/
structure Segment where
  text : Str
  start_offset : Nat
  end_offset : Nat
  semantic_level : Nat
deriving DecidableEq

/-- First position at which `sep` occurs in `l` (leftmost occurrence), the
search underlying both `str::split` and `Regex::find`. -/
def findSub (sep : Str) : Str → Option Nat
  | [] => if sep.isPrefixOf ([] : Str) then some 0 else none
  | c :: rest =>
    if sep.isPrefixOf (c :: rest) then some 0
    else (findSub sep rest).map (· + 1)

/-- `str::split(sep)` for a non-empty literal separator (this is also
`Regex::split` for the header patterns `\n### `, `\n## `, `\n# `, which
contain no metacharacters): the pieces between consecutive non-overlapping
leftmost occurrences of `sep`.  The `fuel` argument only drives the
recursion: every step drops at least `sep.length ≥ 1` characters, so
`fuel = l.length + 1` always reaches the `findSub _ _ = none` base case. -/
def splitLitF (sep : Str) : Nat → Str → List Str
  | 0, l => [l]
  | fuel + 1, l =>
    match findSub sep l with
    | none => [l]
    | some i => l.take i :: splitLitF sep fuel (l.drop (i + sep.length))

/-- `str::split` by a literal separator (see `splitLitF`). -/
def splitLit (sep l : Str) : List Str := splitLitF sep (l.length + 1) l

/-- `Regex::split` for the pattern `\n\n+`: its leftmost-greedy matches are
exactly the maximal runs of two or more consecutive newlines, so the pieces
are the texts between those runs.  `fuel = l.length + 1` always suffices:
every step drops at least the two newlines found at position `i`. -/
def splitNlRunF : Nat → Str → List Str
  | 0, l => [l]
  | fuel + 1, l =>
    match findSub ['\n', '\n'] l with
    | none => [l]
    | some i =>
      l.take i :: splitNlRunF fuel ((l.drop i).dropWhile (fun c => c = '\n'))

/-- `Regex::split` for `\n\n+` (see `splitNlRunF`). -/
def splitNlRun (l : Str) : List Str := splitNlRunF (l.length + 1) l

/-- The `level` fields of the eleven `SeparatorPattern` entries built by
`SemanticSegmenter::new`, in vector order:
`\n\n+` (level 0), `\n### ` `\n## ` `\n# ` (level 1), `\n` (level 2),
`. ` `? ` `! ` (level 3), `; ` `, ` (level 4), ` ` (level 5). -/
def separatorLevels : List Nat := [0, 1, 1, 1, 2, 3, 3, 3, 4, 4, 5]

/-- `split_by_regex` / `split_by_literal` for the separator at *vector index*
`idx` of `SemanticSegmenter::new`'s `separators`, including their
`filter(|s| !s.trim().is_empty())`. -/
def sepSplit (idx : Nat) (t : Str) : List Str :=
  (match idx with
   | 0 => splitNlRun t
   | 1 => splitLit ('\n' :: "### ".data) t
   | 2 => splitLit ('\n' :: "## ".data) t
   | 3 => splitLit ('\n' :: "# ".data) t
   | 4 => splitLit ['\n'] t
   | 5 => splitLit ". ".data t
   | 6 => splitLit "? ".data t
   | 7 => splitLit "! ".data t
   | 8 => splitLit "; ".data t
   | 9 => splitLit ", ".data t
   | _ => splitLit [' '] t
  ).filter (fun s => !(trim s).isEmpty)

/-- `SemanticSegmenter::split_segment` at separator vector index `idx`.  The
offset bookkeeping is exactly the source's: `current_offset` starts at
`segment.start_offset` and advances by `split_text.len()` for each kept
split (the separator bytes are never added). -/
def split_segment (seg : Segment) (idx : Nat) : List Segment :=
  if 11 ≤ idx then [seg]
  else
    let splits := sepSplit idx seg.text
    if splits.length ≤ 1 then [seg]
    else
      (splits.foldl
        (fun (acc : List Segment × Nat) s =>
          if !(trim s).isEmpty then
            (acc.1 ++ [⟨s, acc.2, acc.2 + s.length, idx⟩], acc.2 + s.length)
          else acc)
        ([], seg.start_offset)).1

/-- `SemanticSegmenter::recursive_split`.  The Rust function recurses on the
`separator_level` index, returning its input once the index reaches
`separators.len() = 11`; here the remaining indices are the explicit list
`levels` (a call at level `k` corresponds to `levels = [k, k+1, …, 10]`).
Within one level, segments that fit the budget are pushed to `result` and
split products are accumulated in `needs_further_splitting`, which is
processed at the next level and *appended after* `result`. -/
def recursive_split (tok : Tok) (max_tokens : Nat) :
    List Segment → List Nat → List Segment
  | segments, [] => segments
  | segments, idx :: rest =>
    let step := segments.foldl
      (fun (acc : List Segment × List Segment) seg =>
        if (tok.encode seg.text).length ≤ max_tokens then (acc.1 ++ [seg], acc.2)
        else
          let sp := split_segment seg idx
          if 1 < sp.length then (acc.1, acc.2 ++ sp)
          else (acc.1, acc.2 ++ [seg]))
      ([], [])
    if step.2.isEmpty then step.1
    else step.1 ++ recursive_split tok max_tokens step.2 rest

/-- `SemanticSegmenter::segment`: start from one segment spanning the whole
text (level 0) and run the recursive splitter from separator index 0. -/
def segment (tok : Tok) (text : Str) (max_tokens : Nat) : List Segment :=
  recursive_split tok max_tokens [⟨text, 0, text.length, 0⟩] (List.range 11)

/-! ## Chunk merger (`chunk_merger.rs`) -/

/-- `chunk_merger::SemanticChunk`. -/
structure SemanticChunk where
  text : Str
  token_count : Nat
  start_offset : Nat
  end_offset : Nat
  segments : List Nat
deriving DecidableEq

/-- The loop state of `ChunkMerger::merge_segments`: emitted chunks plus the
current buffer (`current_chunk_text`, `current_chunk_segments`,
`current_start_offset`, `current_end_offset`). -/
structure MergeState where
  chunks : List SemanticChunk
  curText : Str
  curSegs : List Nat
  curStart : Nat
  curEnd : Nat
deriving DecidableEq

/-- The `potential_text` computed at the top of the merge loop body:
the segment alone if the buffer is empty, else `format!("{} {}", buffer,
segment.text)`. -/
def mergePotential (st : MergeState) (seg : Segment) : Str :=
  if st.curText = [] then seg.text else st.curText ++ ' ' :: seg.text

/-- One iteration of the `for (i, segment) in segments.iter().enumerate()`
loop in `merge_segments`. -/
def mergeStepSeg (tok : Tok) (target : Nat) (st : MergeState) (i : Nat)
    (seg : Segment) : MergeState :=
  let potential := mergePotential st seg
  let potentialTokens := (tok.encode potential).length
  if target < potentialTokens ∧ st.curText ≠ [] then
    { chunks := st.chunks ++
        [⟨st.curText, (tok.encode st.curText).length, st.curStart, st.curEnd, st.curSegs⟩],
      curText := seg.text,
      curSegs := [i],
      curStart := seg.start_offset,
      curEnd := seg.end_offset }
  else
    { chunks := st.chunks,
      curText := if st.curText = [] then seg.text else potential,
      curSegs := st.curSegs ++ [i],
      curStart := if st.curText = [] then seg.start_offset else st.curStart,
      curEnd := seg.end_offset }

/-- The whole `for` loop of `merge_segments`, carrying `enumerate`'s index. -/
def mergeLoopSegs (tok : Tok) (target : Nat) :
    Nat → MergeState → List Segment → MergeState
  | _, st, [] => st
  | i, st, seg :: rest =>
    mergeLoopSegs tok target (i + 1) (mergeStepSeg tok target st i seg) rest

/-- `ChunkMerger::merge_segments`.  The Rust signature returns
`Result<Vec<SemanticChunk>, ProcessingError>` but every path is `Ok`; the
wrapper is omitted. -/
def merge_segments (tok : Tok) (target : Nat) (segments : List Segment) :
    List SemanticChunk :=
  if segments = [] then []
  else
    let st := mergeLoopSegs tok target 0 ⟨[], [], [], 0, 0⟩ segments
    if st.curText = [] then st.chunks
    else st.chunks ++
      [⟨st.curText, (tok.encode st.curText).length, st.curStart, st.curEnd, st.curSegs⟩]

/-! ## Chunk overlapper (`chunk_overlapper.rs`) and facade
(`semantic_chunker.rs`) -/

/-- `chunking::ChunkMetadata`. -/
structure ChunkMetadata where
  page : Nat
  chunk_id : Nat
  text : Str
  source : Str
  token_count : Nat
deriving DecidableEq

/-- `ChunkOverlapper::add_overlap_to_chunk`: decode the last
`overlap_tokens` ranks of the previous chunk's token list and combine them
with the current chunk's text.  `none` is the `Err(ChunkingError)` raised
when `decode` fails. -/
def add_overlap_to_chunk (tok : Tok) (overlapTokens : Nat)
    (current : SemanticChunk) (previous : List Nat) : Option Str :=
  if overlapTokens = 0 ∨ previous = [] then some current.text
  else
    let overlapStart := if overlapTokens < previous.length
      then previous.length - overlapTokens else 0
    match tok.decode (previous.drop overlapStart) with
    | none => none
    | some overlapText =>
      some (if trim overlapText = [] then current.text
            else if trim current.text = [] then overlapText
            else trim overlapText ++ ' ' :: trim current.text)

/-- The `for (chunk_id, semantic_chunk)` loop of
`ChunkOverlapper::add_overlap_and_finalize`: `cid` is the enumeration index
and `prev` the `previous_chunk_tokens` option. -/
def overlapGo (tok : Tok) (overlapTokens page : Nat) (source : Str) :
    Nat → Option (List Nat) → List SemanticChunk → Option (List ChunkMetadata)
  | _, _, [] => some []
  | cid, prev, c :: rest =>
    let textO : Option Str :=
      if cid = 0 ∨ prev = none then some c.text
      else add_overlap_to_chunk tok overlapTokens c (prev.getD [])
    match textO with
    | none => none
    | some t =>
      let toks := tok.encode t
      match overlapGo tok overlapTokens page source (cid + 1) (some toks) rest with
      | none => none
      | some others => some (⟨page, cid, t, source, toks.length⟩ :: others)

/-- `ChunkOverlapper::add_overlap_and_finalize`. -/
def add_overlap_and_finalize (tok : Tok) (overlapTokens : Nat)
    (semantic_chunks : List SemanticChunk) (page : Nat) (source : Str) :
    Option (List ChunkMetadata) :=
  if semantic_chunks = [] then some []
  else overlapGo tok overlapTokens page source 0 none semantic_chunks

/-- `SemanticChunker::chunk_page_text`: preprocess, short-circuit on empty or
on a page that fits the budget, otherwise segment → merge → overlap. -/
def chunk_page_text (tok : Tok) (target overlapTokens : Nat) (page : Nat)
    (text source : Str) : Option (List ChunkMetadata) :=
  let cleaned := preprocess text
  if trim cleaned = [] then some []
  else
    let total := (tok.encode cleaned).length
    if total ≤ target then
      some [⟨page, 0, cleaned, source, total⟩]
    else
      let segs := segment tok cleaned target
      if segs = [] then some []
      else
        let chunks := merge_segments tok target segs
        add_overlap_and_finalize tok overlapTokens chunks page source

/-! ## Concrete tokenizer instantiations used for the claims settled on
concrete inputs.

The pipeline components treat the tokenizer as opaque; to evaluate them on
concrete inputs a `Tok` must be supplied.  `tokCharCount` counts one token
per character (`encode_ordinary` of any real BPE tokenizer also returns `[]`
exactly on `""` and a non-empty list on non-empty text, which is all the
evaluations below rely on). -/

/-- One token per character; decoding unused. -/
def tokCharCount : Tok := ⟨fun t => t.map (fun _ => 0), fun _ => none⟩

/-- A tokenizer whose `encode_ordinary` returns no tokens; used to settle
short-circuit paths on concrete inputs. -/
def tokEmpty : Tok := ⟨fun _ => [], fun _ => some []⟩

/-- A tokenizer whose `decode` returns the single-space text `" "`; used to
exercise the overlapper's whitespace-overlap branch. -/
def tokSpaceDecode : Tok := ⟨fun _ => [], fun _ => some [' ']⟩

/-! ## C2 — merger token bound for multi-segment chunks -/

/-- Invariant carried through `merge_segments`' loop: emitted multi-segment
chunks respect the budget, a non-empty index buffer has non-empty text, and
a buffer holding at least two segments tokenizes within the budget. -/
def MergeInv (tok : Tok) (target : Nat) (st : MergeState) : Prop :=
  (∀ c ∈ st.chunks, 2 ≤ c.segments.length → c.token_count ≤ target) ∧
  (st.curSegs ≠ [] → st.curText ≠ []) ∧
  (2 ≤ st.curSegs.length → (tok.encode st.curText).length ≤ target)

theorem mergeStepSeg_inv (tok : Tok) (target : Nat) (st : MergeState) (i : Nat)
    (seg : Segment) (hseg : seg.text ≠ []) (h : MergeInv tok target st) :
    MergeInv tok target (mergeStepSeg tok target st i seg) := by
  obtain ⟨hchunks, hne, hbound⟩ := h
  simp only [mergeStepSeg]
  split
  · -- the buffer is flushed as a chunk and restarted with `seg`
    refine ⟨?_, fun _ => hseg, ?_⟩
    · intro c hc
      rcases List.mem_append.1 hc with h1 | h1
      · exact hchunks c h1
      · rw [List.mem_singleton.1 h1]
        exact hbound
    · intro h2
      simp at h2
  · next hcond =>
    refine ⟨hchunks, ?_, ?_⟩
    · intro _
      by_cases he : st.curText = []
      · simpa [if_pos he] using hseg
      · rw [if_neg he]
        unfold mergePotential
        rw [if_neg he]
        simp
    · intro h2
      by_cases he : st.curText = []
      · have hsegs : st.curSegs = [] := by
          by_contra hx
          exact (hne hx) he
        rw [hsegs] at h2
        simp at h2
      · rw [if_neg he]
        have hle : ¬ target < (tok.encode (mergePotential st seg)).length := by
          intro hx
          exact hcond ⟨hx, he⟩
        exact Nat.le_of_not_lt hle

theorem mergeLoopSegs_inv (tok : Tok) (target : Nat) :
    ∀ (segs : List Segment) (i : Nat) (st : MergeState),
      (∀ sg ∈ segs, sg.text ≠ []) → MergeInv tok target st →
      MergeInv tok target (mergeLoopSegs tok target i st segs) := by
  intro segs
  induction segs with
  | nil => intro i st _ h; exact h
  | cons seg rest ih =>
    intro i st hne h
    exact ih (i + 1) _ (fun sg hsg => hne sg (List.mem_cons_of_mem seg hsg))
      (mergeStepSeg_inv tok target st i seg (hne seg (List.mem_cons_self seg rest)) h)

/-- **C2 (amended)**: for every input segment list *whose segments all carry
non-empty text* — as those produced by `SemanticSegmenter` always do — every
chunk returned by `ChunkMerger::merge_segments` holding at least two segments
has `token_count ≤ target_tokens`.  (The amendment adds the non-empty-text
hypothesis; see `c2_counterexample`.) -/
theorem c2_merged_chunks_within_budget (tok : Tok) (target : Nat)
    (segments : List Segment) (hne : ∀ sg ∈ segments, sg.text ≠ []) :
    ∀ c ∈ merge_segments tok target segments,
      2 ≤ c.segments.length → c.token_count ≤ target := by
  intro c hc
  unfold merge_segments at hc
  by_cases hempty : segments = []
  · rw [if_pos hempty] at hc
    simp at hc
  · rw [if_neg hempty] at hc
    have hinv : MergeInv tok target (mergeLoopSegs tok target 0 ⟨[], [], [], 0, 0⟩ segments) :=
      mergeLoopSegs_inv tok target segments 0 _ hne ⟨by simp, by simp, by simp⟩
    obtain ⟨hchunks, _, hbound⟩ := hinv
    set st := mergeLoopSegs tok target 0 ⟨[], [], [], 0, 0⟩ segments
    by_cases hcur : st.curText = []
    · rw [if_pos hcur] at hc
      exact hchunks c hc
    · rw [if_neg hcur] at hc
      rcases List.mem_append.1 hc with h1 | h1
      · exact hchunks c h1
      · rw [List.mem_singleton.1 h1]
        exact hbound

/-- **C2 (counterexample)**: as frozen, the claim quantifies over *every*
input segment list, but a segment whose `text` is the empty string defeats
the budget check: with `target_tokens = 0`, merging `["", "a"]` produces one
chunk built from **two** segments whose `token_count` is `1 > 0` (the empty
first segment leaves `current_chunk_text` empty, so the overflow branch —
which requires a non-empty buffer — cannot fire when `"a"` is added).  The
tokenizer here counts one token per character, matching the real
`encode_ordinary` on `""` (no tokens) and `"a"` (one token). -/
theorem c2_counterexample :
    (merge_segments tokCharCount 0 [⟨[], 0, 0, 0⟩, ⟨['a'], 0, 1, 0⟩]).map
      (fun c => (c.segments.length, c.token_count)) = [(2, 1)] := by decide

/-- Witness for `c2_merged_chunks_within_budget` at a concrete input: merging
`["a", "b"]` (one token each) under budget 5 produces the single chunk
`"a b"` with segment indices `[0, 1]` and 3 tokens. -/
theorem c2_witness :
    (⟨'a' :: ' ' :: ['b'], 3, 0, 3, [0, 1]⟩ : SemanticChunk).token_count ≤ 5 :=
  c2_merged_chunks_within_budget tokCharCount 5
    [⟨['a'], 0, 1, 0⟩, ⟨['b'], 2, 3, 0⟩] (by decide)
    ⟨'a' :: ' ' :: ['b'], 3, 0, 3, [0, 1]⟩ (by decide) (by decide)

/-! ## C3 — single-chunk short circuit, and C4 — dense chunk ids -/

/-- **C3**: for every input whose preprocessed text is non-empty and
tokenizes to at most `target_tokens` tokens, `chunk_page_text` returns
exactly one record: `chunk_id = 0`, `text` the preprocessed text, and
`token_count` the length of that tokenization. -/
theorem c3_single_chunk (tok : Tok) (target overlapTokens page : Nat)
    (text source : Str)
    (h1 : preprocess text ≠ [])
    (h2 : (tok.encode (preprocess text)).length ≤ target) :
    chunk_page_text tok target overlapTokens page text source =
      some [⟨page, 0, preprocess text, source, (tok.encode (preprocess text)).length⟩] := by
  simp only [chunk_page_text]
  rw [preprocess_trimmed text, if_neg h1, if_pos h2]

/-- Witness for `c3_single_chunk`: the page `"a"` under a tokenizer that
returns no tokens fits any budget and yields the single record. -/
theorem c3_witness :
    chunk_page_text tokEmpty 1 0 0 ['a'] [] =
      some [⟨0, 0, preprocess ['a'], [], (tokEmpty.encode (preprocess ['a'])).length⟩] :=
  c3_single_chunk tokEmpty 1 0 0 ['a'] [] (by decide) (by decide)

theorem overlapGo_ids (tok : Tok) (overlapTokens page : Nat) (source : Str) :
    ∀ (chunks : List SemanticChunk) (cid : Nat) (prev : Option (List Nat))
      (out : List ChunkMetadata),
      overlapGo tok overlapTokens page source cid prev chunks = some out →
      out.map (fun r => r.chunk_id) = List.range' cid out.length := by
  intro chunks
  induction chunks with
  | nil =>
    intro cid prev out h
    simp only [overlapGo] at h
    cases h
    rfl
  | cons c rest ih =>
    intro cid prev out h
    simp only [overlapGo] at h
    split at h
    · exact absurd h (by simp)
    · next t _ =>
      split at h
      · exact absurd h (by simp)
      · next others hrec =>
        cases h
        have := ih (cid + 1) (some (tok.encode t)) others hrec
        simp only [List.map_cons, List.length_cons, this]
        rw [List.range'_succ]

/-- **C4**: whenever `chunk_page_text` succeeds, the `chunk_id` fields of the
returned records are exactly `0, 1, …, k−1` in output order. -/
theorem c4_dense_chunk_ids (tok : Tok) (target overlapTokens page : Nat)
    (text source : Str) (records : List ChunkMetadata)
    (h : chunk_page_text tok target overlapTokens page text source = some records) :
    records.map (fun r => r.chunk_id) = List.range records.length := by
  simp only [chunk_page_text] at h
  split at h
  · cases h
    rfl
  · split at h
    · cases h
      rfl
    · split at h
      · cases h
        rfl
      · simp only [add_overlap_and_finalize] at h
        split at h
        · cases h
          rfl
        · rw [List.range_eq_range']
          exact overlapGo_ids tok overlapTokens page source _ 0 none records h

/-- Witness for `c4_dense_chunk_ids` at a concrete input (the single-chunk
path of page `"a"`). -/
theorem c4_witness :
    ([⟨0, 0, ['a'], [], 0⟩] : List ChunkMetadata).map (fun r => r.chunk_id) =
      List.range ([⟨0, 0, ['a'], [], 0⟩] : List ChunkMetadata).length :=
  c4_dense_chunk_ids tokEmpty 1 0 0 ['a'] [] [⟨0, 0, ['a'], [], 0⟩] (by decide)

/-! ## C5 — overlap construction -/

/-- **C5 (counterexample)**: the claim says that when the decoded overlap
text trims to empty, the overlap text and the chunk text are *concatenated
without a separator*.  The code instead drops the overlap text entirely.
With `overlap_tokens = 1`, a previous token list `[7]` whose decoding is the
whitespace text `" "`, and current chunk text `"x"`, the code produces `"x"`,
not the concatenation `" x"`. -/
theorem c5_counterexample :
    add_overlap_to_chunk tokSpaceDecode 1 ⟨['x'], 1, 0, 1, [0]⟩ [7] = some ['x'] ∧
    decide (add_overlap_to_chunk tokSpaceDecode 1 ⟨['x'], 1, 0, 1, [0]⟩ [7] =
      some ([' '] ++ ['x'])) = false := by
  exact ⟨by decide, by decide⟩

/-- **C5 (amended)**: when `overlap_tokens > 0` and the previous chunk's
token list is non-empty, and decoding its last `overlap_tokens` ranks yields
`overlapText`, the new chunk text is: the chunk's text unchanged if
`overlapText` trims to empty; the decoded text unchanged if the chunk's text
trims to empty; otherwise `trim(overlapText) ++ " " ++ trim(chunkText)`. -/
theorem c5_overlap_text (tok : Tok) (overlapTokens : Nat)
    (current : SemanticChunk) (previous : List Nat) (overlapText : Str)
    (hN : 0 < overlapTokens) (hprev : previous ≠ [])
    (hdec : tok.decode (previous.drop (previous.length - overlapTokens)) =
      some overlapText) :
    add_overlap_to_chunk tok overlapTokens current previous =
      some (if trim overlapText = [] then current.text
            else if trim current.text = [] then overlapText
            else trim overlapText ++ ' ' :: trim current.text) := by
  simp only [add_overlap_to_chunk]
  rw [if_neg (by push_neg; exact ⟨by omega, hprev⟩)]
  have hstart :
      (if overlapTokens < previous.length then previous.length - overlapTokens else 0) =
        previous.length - overlapTokens := by
    by_cases h : overlapTokens < previous.length
    · rw [if_pos h]
    · rw [if_neg h]
      omega
  rw [hstart, hdec]

/-- Witness for `c5_overlap_text`: decoding yields `" "`, which trims to
empty, so the first branch applies. -/
theorem c5_witness :
    add_overlap_to_chunk tokSpaceDecode 2 ⟨['y'], 1, 0, 1, [0]⟩ [3, 4] =
      some (if trim [' '] = [] then (⟨['y'], 1, 0, 1, [0]⟩ : SemanticChunk).text
            else if trim (⟨['y'], 1, 0, 1, [0]⟩ : SemanticChunk).text = [] then [' ']
            else trim [' '] ++ ' ' :: trim (⟨['y'], 1, 0, 1, [0]⟩ : SemanticChunk).text) :=
  c5_overlap_text tokSpaceDecode 2 ⟨['y'], 1, 0, 1, [0]⟩ [3, 4] [' ']
    (by decide) (by decide) (by decide)

/-! ## C8, C9, C10 — segmenter bugs, shown by evaluating the code -/

/-- **C8** (evaluation at the failing input): `recursive_split` pushes
segments that fit the budget to `result` and appends the recursive leftovers
*after* them, so the output leaves document order.  On the page
`"cccc dddd\n\nbb"` with a one-token-per-character budget of 4, the
paragraph split yields `"cccc dddd"` (over budget) and `"bb"` (fits); the
output lists `"bb"` (offsets 9..11) *before* the pieces of the first
paragraph (offsets 0..4 and 4..8), so the offsets are not monotonically
non-decreasing. -/
theorem c8_out_of_order :
    (segment tokCharCount "cccc dddd\n\nbb".data 4).map
      (fun sg => (sg.start_offset, sg.end_offset)) = [(9, 11), (0, 4), (4, 8)] := by
  decide

/-- **C9** (evaluation at the failing input): `split_segment` advances
`current_offset` only by each kept split's length, never past the separator
bytes.  Splitting `"aa\nbb"` by `"\n"` (separator index 4) records `"bb"` at
offsets `[2, 4)`, but within the text `"aa\nbb"` the bytes at `[2, 4)` are
`"\nb"`; `"bb"` actually lies at `[3, 5)`. -/
theorem c9_offsets_not_past_separator :
    (split_segment ⟨"aa\nbb".data, 0, 5, 0⟩ 4).map
      (fun sg => (sg.text, sg.start_offset, sg.end_offset)) =
      [("aa".data, 0, 2), ("bb".data, 2, 4)] ∧
    ("aa\nbb".data.drop 2).take 2 = "\nb".data ∧
    ("aa\nbb".data.drop 3).take 2 = "bb".data := by
  exact ⟨by decide, by decide, by decide⟩

/-- **C10** (evaluation at the failing input): `split_segment` stores the
separator's *vector index* in `semantic_level`, not the hierarchy level
recorded in the `SeparatorPattern.level` fields.  The page `"aa\nbb"` (one
token per character, budget 3) is split by the single-newline separator,
which sits at vector index 4 but at hierarchy level 2 (`separatorLevels` is
the list of `level` fields from `SemanticSegmenter::new`): both produced
segments get `semantic_level = 4`, where the spec's numbering requires 2. -/
theorem c10_semantic_level_is_vector_index :
    (segment tokCharCount "aa\nbb".data 3).map (fun sg => sg.semantic_level) = [4, 4] ∧
    separatorLevels.getD 4 0 = 2 := by
  exact ⟨by decide, by decide⟩

/-! ## BPE engine (`tiktoken_core.rs`)

`_byte_pair_merge`, `byte_pair_encode`, `CoreBPE::encode_ordinary` and
`CoreBPE::decode`.  Bytes are `Nat`; the vocabulary (`encoder`) is a lookup
function `Ranks`; `Rank::MAX = u32::MAX` is the `Nat` constant `RMAX`.
Vocabulary indexing (`ranks[key]`) and decoder lookups are modelled in
`Option`, with `none` the panic/`Err` outcome. -/

/-- The encoder map `FxHashMap<Vec<u8>, Rank>` as a lookup function. -/
abbrev Ranks := List Nat → Option Nat

/-- `Rank::MAX`, i.e. `u32::MAX`. -/
def RMAX : Nat := 4294967295

/-- `*ranks.get(key).unwrap_or(&Rank::MAX)`. -/
def getOrMax (ranks : Ranks) (key : List Nat) : Nat := (ranks key).getD RMAX

/-- The byte slice `piece[a..b]`. -/
def spanOf (piece : List Nat) (a b : Nat) : List Nat := (piece.drop a).take (b - a)

/-- One `(start position, rank)` entry of `_byte_pair_merge`'s `parts`. -/
abbrev Part := Nat × Nat

/-- Default for `List.getD` on `parts`; every modelled access is in range. -/
def dpart : Part := (0, RMAX)

/-- The initial `parts` vector: `(i, rank of piece[i..i+2])` for every
`i < piece.len() - 1`, then the sentinels `(piece.len()-1, MAX)` and
`(piece.len(), MAX)`. -/
def initParts (ranks : Ranks) (piece : List Nat) : List Part :=
  ((List.range (piece.length - 1)).map
      (fun i => (i, getOrMax ranks (spanOf piece i (i + 2))))) ++
    [(piece.length - 1, RMAX), (piece.length, RMAX)]

/-- The `get_rank` closure: the rank of the span from boundary `i` to
boundary `i + 3`, or `MAX` when `i + 3` is out of range. -/
def getRank (ranks : Ranks) (piece : List Nat) (parts : List Part) (i : Nat) : Nat :=
  if i + 3 < parts.length then
    getOrMax ranks (spanOf piece (parts.getD i dpart).1 (parts.getD (i + 3) dpart).1)
  else RMAX

/-- The linear scan for the minimum rank: first index whose rank is strictly
below the running minimum, starting from `(Rank::MAX, usize::MAX)` (the
initial index is never read and is modelled as 0). -/
def findMinAux : List Part → Nat → Nat × Nat → Nat × Nat
  | [], _, acc => acc
  | p :: rest, i, acc =>
    if p.2 < acc.1 then findMinAux rest (i + 1) (p.2, i)
    else findMinAux rest (i + 1) acc

/-- `min_rank` as recomputed at the end of each loop iteration: the scan runs
over `parts[..parts.len() - 1]`.  (The source's initial scan covers only the
pre-sentinel entries; the sentinel ranks are `MAX` and can never win the
strict comparison, so scanning `dropLast` agrees with it.) -/
def findMin (parts : List Part) : Nat × Nat := findMinAux parts.dropLast 0 (RMAX, 0)

/-- The conditional first update of a merge iteration:
`if i > 0 { parts[i - 1].1 = get_rank(&parts, i - 1); }`. -/
def stepParts1 (ranks : Ranks) (piece : List Nat) (parts : List Part) (i : Nat) :
    List Part :=
  if 0 < i then
    parts.set (i - 1) ((parts.getD (i - 1) dpart).1, getRank ranks piece parts (i - 1))
  else parts

/-- One iteration of the merge loop at minimum index `i`: re-rank entries
`i - 1` and `i` with `get_rank` (in source order — the first update changes
only a rank, which `get_rank` never reads, so feeding `parts1` to the second
lookup matches the mutated-in-place Rust vector), then remove entry `i+1`
(`parts.remove(i + 1)`). -/
def bpeMergeStep (ranks : Ranks) (piece : List Nat) (parts : List Part) (i : Nat) :
    List Part :=
  let parts1 := stepParts1 ranks piece parts i
  (parts1.set i ((parts1.getD i dpart).1, getRank ranks piece parts1 i)).eraseIdx (i + 1)

theorem findMinAux_spec :
    ∀ (l : List Part) (i0 : Nat) (acc : Nat × Nat),
      findMinAux l i0 acc = acc ∨
      ∃ j, j < l.length ∧ (findMinAux l i0 acc).1 = (l.getD j dpart).2 ∧
        (findMinAux l i0 acc).2 = i0 + j ∧ (findMinAux l i0 acc).1 < acc.1 := by
  intro l
  induction l with
  | nil => intro i0 acc; exact Or.inl rfl
  | cons p rest ih =>
    intro i0 acc
    simp only [findMinAux]
    by_cases hp : p.2 < acc.1
    · rw [if_pos hp]
      rcases ih (i0 + 1) (p.2, i0) with h | ⟨j, hj, hv, hi, hlt⟩
      · refine Or.inr ⟨0, by simp, ?_, ?_, ?_⟩
        · simp [h]
        · simp [h]
        · rw [h]; exact hp
      · refine Or.inr ⟨j + 1, by simpa using hj, ?_, ?_, ?_⟩
        · rw [hv]; rfl
        · rw [hi]; omega
        · exact Nat.lt_trans hlt hp
    · rw [if_neg hp]
      rcases ih (i0 + 1) acc with h | ⟨j, hj, hv, hi, hlt⟩
      · exact Or.inl h
      · refine Or.inr ⟨j + 1, by simpa using hj, ?_, ?_, ?_⟩
        · rw [hv]; rfl
        · rw [hi]; omega
        · exact hlt

theorem findMin_spec (parts : List Part) (hne : (findMin parts).1 ≠ RMAX) :
    (findMin parts).2 + 1 < parts.length ∧
    (parts.getD (findMin parts).2 dpart).2 = (findMin parts).1 ∧
    (findMin parts).1 < RMAX := by
  unfold findMin at *
  rcases findMinAux_spec parts.dropLast 0 (RMAX, 0) with h | ⟨j, hj, hv, hi, hlt⟩
  · exact absurd (by rw [h]) hne
  · have hjlen : j < parts.length - 1 := by
      have := parts.length_dropLast
      omega
    have hget : parts.dropLast.getD j dpart = parts.getD j dpart := by
      rw [List.getD_eq_getElem?_getD, List.getD_eq_getElem?_getD,
        List.dropLast_eq_take, List.getElem?_take]
      rw [if_pos hjlen]
    constructor
    · omega
    · constructor
      · rw [hi, Nat.zero_add, ← hget, ← hv]
      · exact hlt

theorem bpeMergeStep_length (ranks : Ranks) (piece : List Nat) (parts : List Part)
    (i : Nat) (h : i + 1 < parts.length) :
    (bpeMergeStep ranks piece parts i).length = parts.length - 1 := by
  simp only [bpeMergeStep]
  have h2 : ∀ m : List Part, m.length = parts.length →
      ((m.set i ((m.getD i dpart).1, getRank ranks piece m i)).eraseIdx (i + 1)).length =
        parts.length - 1 := by
    intro m hm
    rw [List.length_eraseIdx_of_lt (by simp [hm]; omega), List.length_set, hm]
  apply h2
  unfold stepParts1
  split <;> simp

/-- `while min_rank.0 != Rank::MAX { … }`: each iteration removes one parts
entry, so the loop terminates. -/
def bpeMergeLoop (ranks : Ranks) (piece : List Nat) (parts : List Part) : List Part :=
  if h : (findMin parts).1 = RMAX then parts
  else bpeMergeLoop ranks piece (bpeMergeStep ranks piece parts (findMin parts).2)
termination_by parts.length
decreasing_by
  have hs := findMin_spec parts h
  rw [bpeMergeStep_length ranks piece parts (findMin parts).2 (by omega)]
  omega

/-- `_byte_pair_merge`. -/
def _byte_pair_merge (ranks : Ranks) (piece : List Nat) : List Part :=
  bpeMergeLoop ranks piece (initParts ranks piece)

/-- The boundary position of parts entry `k`. -/
def posAt (parts : List Part) (k : Nat) : Nat := (parts.getD k dpart).1

/-- The cached pair rank of parts entry `k`. -/
def rankAt (parts : List Part) (k : Nat) : Nat := (parts.getD k dpart).2

theorem getD_set_self {α : Type} (l : List α) (k : Nat) (a d : α) (h : k < l.length) :
    (l.set k a).getD k d = a := by
  rw [List.getD_eq_getElem?_getD, List.getElem?_set_self h]
  rfl

theorem getD_set_ne {α : Type} (l : List α) (k m : Nat) (a d : α) (h : ¬ k = m) :
    (l.set k a).getD m d = l.getD m d := by
  rw [List.getD_eq_getElem?_getD, List.getD_eq_getElem?_getD, List.getElem?_set_ne h]

theorem getD_eraseIdx_lt {α : Type} (l : List α) (k m : Nat) (d : α) (h : m < k) :
    (l.eraseIdx k).getD m d = l.getD m d := by
  rw [List.getD_eq_getElem?_getD, List.getD_eq_getElem?_getD,
    List.getElem?_eraseIdx_of_lt l k m h]

theorem getD_eraseIdx_ge {α : Type} (l : List α) (k m : Nat) (d : α) (h : k ≤ m) :
    (l.eraseIdx k).getD m d = l.getD (m + 1) d := by
  rw [List.getD_eq_getElem?_getD, List.getD_eq_getElem?_getD,
    List.getElem?_eraseIdx_of_ge l k m h]

theorem stepParts1_length (ranks : Ranks) (piece : List Nat) (parts : List Part)
    (i : Nat) : (stepParts1 ranks piece parts i).length = parts.length := by
  unfold stepParts1
  split <;> simp

theorem stepParts1_posAt (ranks : Ranks) (piece : List Nat) (parts : List Part)
    (i k : Nat) : posAt (stepParts1 ranks piece parts i) k = posAt parts k := by
  unfold stepParts1 posAt
  split
  · by_cases hk : i - 1 = k
    · subst hk
      by_cases hlt : i - 1 < parts.length
      · rw [getD_set_self _ _ _ _ hlt]
      · rw [List.set_eq_of_length_le (by omega)]
    · rw [getD_set_ne _ _ _ _ _ hk]
  · rfl

theorem stepParts1_rankAt_ne (ranks : Ranks) (piece : List Nat) (parts : List Part)
    (i k : Nat) (hk : ¬ i - 1 = k) :
    rankAt (stepParts1 ranks piece parts i) k = rankAt parts k := by
  unfold stepParts1 rankAt
  split
  · rw [getD_set_ne _ _ _ _ _ hk]
  · rfl

theorem stepParts1_rankAt_pred (ranks : Ranks) (piece : List Nat) (parts : List Part)
    (i : Nat) (hi : 0 < i) (hlt : i - 1 < parts.length) :
    rankAt (stepParts1 ranks piece parts i) (i - 1) =
      getRank ranks piece parts (i - 1) := by
  unfold stepParts1 rankAt
  rw [if_pos hi, getD_set_self _ _ _ _ hlt]

/-- `get_rank` reads only positions and the length, so it is invariant under
the rank-only rewrites of `stepParts1` and `List.set`. -/
theorem getRank_congr (ranks : Ranks) (piece : List Nat) (a b : List Part) (i : Nat)
    (hlen : a.length = b.length) (hpos : ∀ k, posAt a k = posAt b k) :
    getRank ranks piece a i = getRank ranks piece b i := by
  unfold getRank
  rw [hlen]
  split
  · have h1 := hpos i
    have h2 := hpos (i + 3)
    unfold posAt at h1 h2
    rw [h1, h2]
  · rfl

/-- Positions after a merge step: boundary `i + 1` disappears, everything
else is preserved. -/
theorem step_posAt (ranks : Ranks) (piece : List Nat) (parts : List Part) (i k : Nat) :
    posAt (bpeMergeStep ranks piece parts i) k =
      if k ≤ i then posAt parts k else posAt parts (k + 1) := by
  simp only [bpeMergeStep]
  set p1 := stepParts1 ranks piece parts i with hp1
  have hpos1 : ∀ m, posAt p1 m = posAt parts m := fun m => stepParts1_posAt ranks piece parts i m
  have hpos2 : ∀ m, posAt (p1.set i ((p1.getD i dpart).1, getRank ranks piece p1 i)) m =
      posAt parts m := by
    intro m
    by_cases hm : i = m
    · subst hm
      by_cases hlt : i < p1.length
      · unfold posAt
        rw [getD_set_self _ _ _ _ hlt]
        exact hpos1 i
      · unfold posAt
        rw [List.set_eq_of_length_le (by omega)]
        exact hpos1 i
    · unfold posAt
      rw [getD_set_ne _ _ _ _ _ hm]
      exact hpos1 m
  by_cases hk : k ≤ i
  · rw [if_pos hk]
    unfold posAt
    rw [getD_eraseIdx_lt _ _ _ _ (by omega)]
    exact hpos2 k
  · rw [if_neg hk]
    unfold posAt
    rw [getD_eraseIdx_ge _ _ _ _ (by omega)]
    exact hpos2 (k + 1)

theorem step_rankAt_lt (ranks : Ranks) (piece : List Nat) (parts : List Part)
    (i k : Nat) (hk : k + 1 < i) :
    rankAt (bpeMergeStep ranks piece parts i) k = rankAt parts k := by
  simp only [bpeMergeStep]
  unfold rankAt
  rw [getD_eraseIdx_lt _ _ _ _ (by omega), getD_set_ne _ _ _ _ _ (by omega)]
  exact stepParts1_rankAt_ne ranks piece parts i k (by omega)

theorem step_rankAt_pred (ranks : Ranks) (piece : List Nat) (parts : List Part)
    (i : Nat) (hi : 0 < i) (hlen : i - 1 < parts.length) :
    rankAt (bpeMergeStep ranks piece parts i) (i - 1) =
      getRank ranks piece parts (i - 1) := by
  simp only [bpeMergeStep]
  unfold rankAt
  rw [getD_eraseIdx_lt _ _ _ _ (by omega), getD_set_ne _ _ _ _ _ (by omega)]
  exact stepParts1_rankAt_pred ranks piece parts i hi hlen

theorem step_rankAt_self (ranks : Ranks) (piece : List Nat) (parts : List Part)
    (i : Nat) (hlen : i < parts.length) :
    rankAt (bpeMergeStep ranks piece parts i) i = getRank ranks piece parts i := by
  simp only [bpeMergeStep]
  unfold rankAt
  rw [getD_eraseIdx_lt _ _ _ _ (by omega),
    getD_set_self _ _ _ _ (by rw [stepParts1_length]; exact hlen)]
  exact getRank_congr ranks piece _ parts i (stepParts1_length ranks piece parts i)
    (fun m => stepParts1_posAt ranks piece parts i m)

theorem step_rankAt_gt (ranks : Ranks) (piece : List Nat) (parts : List Part)
    (i k : Nat) (hk : i < k) :
    rankAt (bpeMergeStep ranks piece parts i) k = rankAt parts (k + 1) := by
  simp only [bpeMergeStep]
  unfold rankAt
  rw [getD_eraseIdx_ge _ _ _ _ (by omega), getD_set_ne _ _ _ _ _ (by omega)]
  exact stepParts1_rankAt_ne ranks piece parts i (k + 1) (by omega)

/-- The invariant of `_byte_pair_merge`'s parts vector: the boundaries start
at 0, end at `piece.len()`, strictly increase; every adjacent boundary span
is a vocabulary key (single bytes initially, and each merge replaces two
adjacent spans by a span whose rank was found `< MAX`, hence present); every
cached rank is the `get_rank` value of its two-ahead span (`MAX` for the
trailing sentinels). -/
structure PartsInv (ranks : Ranks) (piece : List Nat) (parts : List Part) : Prop where
  ne : parts ≠ []
  head_pos : posAt parts 0 = 0
  last_pos : posAt parts (parts.length - 1) = piece.length
  mono : ∀ k, k + 1 < parts.length → posAt parts k < posAt parts (k + 1)
  span_ok : ∀ k, k + 1 < parts.length →
    (ranks (spanOf piece (posAt parts k) (posAt parts (k + 1)))).isSome
  rank_ok : ∀ k, k + 2 < parts.length →
    rankAt parts k = getOrMax ranks (spanOf piece (posAt parts k) (posAt parts (k + 2)))
  rank_sentinel : ∀ k, k < parts.length → parts.length ≤ k + 2 → rankAt parts k = RMAX

theorem isSome_of_getOrMax_ne (ranks : Ranks) (key : List Nat)
    (h : getOrMax ranks key ≠ RMAX) : (ranks key).isSome := by
  unfold getOrMax at h
  cases hr : ranks key with
  | none => rw [hr] at h; simp at h
  | some v => rfl

theorem bpeMergeStep_inv (ranks : Ranks) (piece : List Nat) (parts : List Part)
    (hinv : PartsInv ranks piece parts) (i : Nat)
    (hrankeq : rankAt parts i ≠ RMAX) (hidx : i + 1 < parts.length) :
    PartsInv ranks piece (bpeMergeStep ranks piece parts i) := by
  have hva : i + 2 < parts.length := by
    by_contra hx
    exact hrankeq (hinv.rank_sentinel i (by omega) (by omega))
  have hlen : (bpeMergeStep ranks piece parts i).length = parts.length - 1 :=
    bpeMergeStep_length ranks piece parts i hidx
  have hpos : ∀ k, posAt (bpeMergeStep ranks piece parts i) k =
      if k ≤ i then posAt parts k else posAt parts (k + 1) :=
    fun k => step_posAt ranks piece parts i k
  -- the merged span `piece[pos i .. pos (i+2)]` is a vocabulary key
  have hmerged : (ranks (spanOf piece (posAt parts i) (posAt parts (i + 2)))).isSome := by
    refine isSome_of_getOrMax_ne ranks _ ?_
    rw [← hinv.rank_ok i hva]
    exact hrankeq
  refine ⟨?_, ?_, ?_, ?_, ?_, ?_, ?_⟩
  · intro hnil
    have := congrArg List.length hnil
    rw [hlen] at this
    simp at this
    omega
  · rw [hpos 0, if_pos (by omega)]
    exact hinv.head_pos
  · rw [hlen, hpos (parts.length - 1 - 1), if_neg (by omega)]
    have : parts.length - 1 - 1 + 1 = parts.length - 1 := by omega
    rw [this]
    exact hinv.last_pos
  · intro k hk
    rw [hlen] at hk
    rw [hpos k, hpos (k + 1)]
    by_cases hki : k + 1 ≤ i
    · rw [if_pos (by omega), if_pos hki]
      exact hinv.mono k (by omega)
    · by_cases hke : k = i
      · subst hke
        rw [if_pos (by omega), if_neg hki]
        exact Nat.lt_trans (hinv.mono k (by omega)) (hinv.mono (k + 1) (by omega))
      · rw [if_neg (by omega), if_neg (by omega)]
        exact hinv.mono (k + 1) (by omega)
  · intro k hk
    rw [hlen] at hk
    rw [hpos k, hpos (k + 1)]
    by_cases hki : k + 1 ≤ i
    · rw [if_pos (by omega), if_pos hki]
      exact hinv.span_ok k (by omega)
    · by_cases hke : k = i
      · subst hke
        rw [if_pos (by omega), if_neg hki]
        exact hmerged
      · rw [if_neg (by omega), if_neg (by omega)]
        exact hinv.span_ok (k + 1) (by omega)
  · intro k hk
    rw [hlen] at hk
    rw [hpos k, hpos (k + 2)]
    by_cases hke : k = i
    · -- the freshly written `get_rank(parts, i)` value
      subst hke
      rw [step_rankAt_self ranks piece parts k (by omega)]
      unfold getRank
      rw [if_pos (by omega), if_pos (by omega), if_neg (by omega)]
      rfl
    · by_cases hkp : k = i - 1 ∧ 0 < i
      · -- the freshly written `get_rank(parts, i - 1)` value
        obtain ⟨hke2, hipos⟩ := hkp
        subst hke2
        rw [step_rankAt_pred ranks piece parts i hipos (by omega)]
        unfold getRank
        have h3 : i - 1 + 3 = i + 2 := by omega
        rw [h3, if_pos (by omega), if_pos (by omega), if_neg (by omega)]
        rfl
      · by_cases hklt : k + 1 < i
        · rw [step_rankAt_lt ranks piece parts i k hklt,
            if_pos (by omega), if_pos (by omega)]
          exact hinv.rank_ok k (by omega)
        · have hkgt : i < k := by omega
          rw [step_rankAt_gt ranks piece parts i k hkgt,
            if_neg (by omega), if_neg (by omega)]
          exact hinv.rank_ok (k + 1) (by omega)
  · intro k hk1 hk2
    rw [hlen] at hk1 hk2
    by_cases hke : k = i
    · subst hke
      rw [step_rankAt_self ranks piece parts k (by omega)]
      unfold getRank
      rw [if_neg (by omega)]
    · have hkgt : i < k := by omega
      rw [step_rankAt_gt ranks piece parts i k hkgt]
      exact hinv.rank_sentinel (k + 1) (by omega) (by omega)

theorem initParts_length (ranks : Ranks) (piece : List Nat) (hn : 1 ≤ piece.length) :
    (initParts ranks piece).length = piece.length + 1 := by
  unfold initParts
  simp
  omega

theorem initParts_getD (ranks : Ranks) (piece : List Nat) (k : Nat)
    (hk : k ≤ piece.length) :
    (initParts ranks piece).getD k dpart =
      (k, if k < piece.length - 1 then getOrMax ranks (spanOf piece k (k + 2))
          else RMAX) := by
  unfold initParts
  rw [List.getD_eq_getElem?_getD]
  by_cases hlt : k < piece.length - 1
  · rw [List.getElem?_append_left (by simpa using hlt)]
    rw [List.getElem?_map, List.getElem?_range hlt]
    rw [if_pos hlt]
    rfl
  · rw [List.getElem?_append_right (by simpa using hlt)]
    rw [List.length_map, List.length_range, if_neg hlt]
    have hcases : k - (piece.length - 1) = 0 ∨ k - (piece.length - 1) = 1 := by omega
    rcases hcases with hc | hc
    · rw [hc]
      have hkeq : k = piece.length - 1 := by omega
      subst hkeq
      rfl
    · rw [hc]
      have hkeq : k = piece.length := by omega
      subst hkeq
      rfl

theorem spanOf_single (piece : List Nat) (k : Nat) (hk : k < piece.length) :
    spanOf piece k (k + 1) = [piece.getD k 0] := by
  unfold spanOf
  have h1 : k + 1 - k = 1 := by omega
  rw [h1]
  cases hd : piece.drop k with
  | nil =>
    have := congrArg List.length hd
    rw [List.length_drop] at this
    simp at this
    omega
  | cons a t =>
    have ha : piece[k]? = some a := by
      have : (piece.drop k)[0]? = some a := by rw [hd]; simp
      rwa [List.getElem?_drop, Nat.add_zero] at this
    rw [List.getD_eq_getElem?_getD, ha]
    rfl

theorem initParts_inv (ranks : Ranks) (piece : List Nat) (hn : 2 ≤ piece.length)
    (hsingle : ∀ b ∈ piece, (ranks [b]).isSome) :
    PartsInv ranks piece (initParts ranks piece) := by
  have hlen : (initParts ranks piece).length = piece.length + 1 :=
    initParts_length ranks piece (by omega)
  have hget : ∀ k, k ≤ piece.length →
      (initParts ranks piece).getD k dpart =
        (k, if k < piece.length - 1 then getOrMax ranks (spanOf piece k (k + 2))
            else RMAX) := fun k hk => initParts_getD ranks piece k hk
  have hposAt : ∀ k, k ≤ piece.length → posAt (initParts ranks piece) k = k := by
    intro k hk
    unfold posAt
    rw [hget k hk]
  refine ⟨?_, ?_, ?_, ?_, ?_, ?_, ?_⟩
  · intro hnil
    have := congrArg List.length hnil
    rw [hlen] at this
    simp at this
  · exact hposAt 0 (by omega)
  · rw [hlen]
    have h1 : piece.length + 1 - 1 = piece.length := by omega
    rw [h1]
    exact hposAt piece.length (by omega)
  · intro k hk
    rw [hlen] at hk
    rw [hposAt k (by omega), hposAt (k + 1) (by omega)]
    omega
  · intro k hk
    rw [hlen] at hk
    rw [hposAt k (by omega), hposAt (k + 1) (by omega), spanOf_single piece k (by omega)]
    refine hsingle _ ?_
    rw [List.getD_eq_getElem?_getD, List.getElem?_eq_getElem (by omega : k < piece.length)]
    exact List.getElem_mem _
  · intro k hk
    rw [hlen] at hk
    rw [hposAt k (by omega), hposAt (k + 2) (by omega)]
    unfold rankAt
    rw [hget k (by omega)]
    rw [if_pos (by omega)]
  · intro k hk1 hk2
    rw [hlen] at hk1 hk2
    unfold rankAt
    rw [hget k (by omega)]
    rw [if_neg (by omega)]

theorem bpeMergeLoop_inv (ranks : Ranks) (piece : List Nat) :
    ∀ (N : Nat) (parts : List Part), parts.length ≤ N →
      PartsInv ranks piece parts →
      PartsInv ranks piece (bpeMergeLoop ranks piece parts) := by
  intro N
  induction N with
  | zero =>
    intro parts hN hinv
    have hnil : parts = [] := List.length_eq_zero.1 (by omega)
    exact absurd hnil hinv.ne
  | succ N ih =>
    intro parts hN hinv
    rw [bpeMergeLoop]
    split
    · exact hinv
    · next hne =>
      obtain ⟨hidx, hreq, hlt⟩ := findMin_spec parts hne
      refine ih (bpeMergeStep ranks piece parts (findMin parts).2) ?_ ?_
      · rw [bpeMergeStep_length ranks piece parts _ hidx]
        omega
      · refine bpeMergeStep_inv ranks piece parts hinv (findMin parts).2 ?_ hidx
        unfold rankAt
        rw [show (parts.getD (findMin parts).2 dpart).2 = (findMin parts).1 from hreq]
        omega

/-- `byte_pair_encode`: single-byte pieces are looked up directly; longer
pieces run the merge and look up every adjacent boundary span
(`parts.windows(2)`, modelled as `parts.zip parts.tail`).  A failed lookup is
the `ranks[...]` panic, modelled as `none`. -/
def byte_pair_encode (piece : List Nat) (ranks : Ranks) : Option (List Nat) :=
  if piece.length = 1 then (ranks piece).map (fun t => [t])
  else
    (( _byte_pair_merge ranks piece).zip (_byte_pair_merge ranks piece).tail).mapM
      (fun ab => ranks (spanOf piece ab.1.1 ab.2.1))

/-- `CoreBPE::encode_ordinary`, parametric in the piece list produced by the
pre-tokenization regex.

Modelled from the spec: the `o200k_base` pre-tokenization pattern and the
`fancy_regex` engine iterating it are not part of the sources under
verification; per the spec (§4.B, §8.1 and the glossary) its matches are
non-empty and consecutive matches concatenate to the input, which is how the
`pieces` argument is constrained in the round-trip theorem. -/
def encode_ordinary (ranks : Ranks) (pieces : List (List Nat)) : Option (List Nat) :=
  (pieces.mapM (fun piece =>
    match ranks piece with
    | some token => some [token]
    | none => byte_pair_encode piece ranks)).map List.flatten

/-- One token lookup of `CoreBPE::decode`: the regular decoder first, the
special-token decoder second; `none` is the `Invalid token` error. -/
def decodeOne (dec sdec : Nat → Option (List Nat)) (t : Nat) : Option (List Nat) :=
  match dec t with
  | some bs => some bs
  | none => sdec t

/-- `CoreBPE::decode` at the byte level: concatenate the byte sequences of
all tokens (the final `String::from_utf8` re-reads those bytes as text and
succeeds exactly when they are valid UTF-8; byte-level equality is what the
round-trip claim needs). -/
def decodeBytes (dec sdec : Nat → Option (List Nat)) (tokens : List Nat) :
    Option (List Nat) :=
  (tokens.mapM (decodeOne dec sdec)).map List.flatten

theorem posAt_cons_succ (p : Part) (rest : List Part) (k : Nat) :
    posAt (p :: rest) (k + 1) = posAt rest k := rfl

/-- Every adjacent boundary span being a key makes the final `windows(2)`
lookup pass of `byte_pair_encode` total. -/
theorem zip_mapM_isSome (ranks : Ranks) (piece : List Nat) :
    ∀ parts : List Part,
      (∀ k, k + 1 < parts.length →
        (ranks (spanOf piece (posAt parts k) (posAt parts (k + 1)))).isSome) →
      ((parts.zip parts.tail).mapM
        (fun ab => ranks (spanOf piece ab.1.1 ab.2.1))).isSome := by
  intro parts
  induction parts with
  | nil => intro _; rfl
  | cons p rest ih =>
    intro hspan
    cases rest with
    | nil => rfl
    | cons q rest2 =>
      have h0 := hspan 0 (by simp)
      rcases Option.isSome_iff_exists.1 h0 with ⟨t0, ht0⟩
      have hih := ih (fun k hk => by
        have := hspan (k + 1) (by simpa using hk)
        rwa [posAt_cons_succ, posAt_cons_succ] at this)
      rcases Option.isSome_iff_exists.1 hih with ⟨ts, hts⟩
      rw [show (p :: q :: rest2).zip (p :: q :: rest2).tail =
        (p, q) :: ((q :: rest2).zip (q :: rest2).tail) from rfl]
      rw [List.mapM_cons]
      have hpq : ranks (spanOf piece p.1 q.1) = some t0 := by
        have : posAt (p :: q :: rest2) 0 = p.1 := rfl
        have h2 : posAt (p :: q :: rest2) 1 = q.1 := rfl
        rwa [this, h2] at ht0
      rw [hpq, hts]
      rfl

/-- Lookup succeeds on every adjacent span *and* decoding each looked-up
token gives that span back (by decoder-inverts-encoder). -/
theorem zip_decode (ranks : Ranks) (dec sdec : Nat → Option (List Nat))
    (piece : List Nat)
    (hinvdec : ∀ bs r, ranks bs = some r → dec r = some bs) :
    ∀ parts : List Part,
      (∀ k, k + 1 < parts.length →
        (ranks (spanOf piece (posAt parts k) (posAt parts (k + 1)))).isSome) →
      ∃ ts, (parts.zip parts.tail).mapM
          (fun ab => ranks (spanOf piece ab.1.1 ab.2.1)) = some ts ∧
        ts.mapM (decodeOne dec sdec) =
          some ((parts.zip parts.tail).map (fun ab => spanOf piece ab.1.1 ab.2.1)) := by
  intro parts
  induction parts with
  | nil => intro _; exact ⟨[], rfl, rfl⟩
  | cons p rest ih =>
    intro hspan
    cases rest with
    | nil => exact ⟨[], rfl, rfl⟩
    | cons q rest2 =>
      have h0 := hspan 0 (by simp)
      rcases Option.isSome_iff_exists.1 h0 with ⟨t0, ht0⟩
      have hpq : ranks (spanOf piece p.1 q.1) = some t0 := ht0
      rcases ih (fun k hk => by
        have := hspan (k + 1) (by simpa using hk)
        rwa [posAt_cons_succ, posAt_cons_succ] at this) with ⟨ts, hts, hdec⟩
      refine ⟨t0 :: ts, ?_, ?_⟩
      · rw [show (p :: q :: rest2).zip (p :: q :: rest2).tail =
          (p, q) :: ((q :: rest2).zip (q :: rest2).tail) from rfl]
        rw [List.mapM_cons, hpq, hts]
        rfl
      · rw [List.mapM_cons]
        have hd0 : decodeOne dec sdec t0 = some (spanOf piece p.1 q.1) := by
          unfold decodeOne
          rw [hinvdec _ _ hpq]
        rw [hd0, hdec]
        rfl

theorem spanOf_append_drop (piece : List Nat) (a b : Nat) (hab : a ≤ b) :
    spanOf piece a b ++ piece.drop b = piece.drop a := by
  unfold spanOf
  rw [show piece.drop b = (piece.drop a).drop (b - a) by
    rw [List.drop_drop]
    congr 1
    omega]
  exact List.take_append_drop (b - a) (piece.drop a)

/-- With boundaries running monotonically from somewhere up to
`piece.len()`, the adjacent spans concatenate back to the suffix of `piece`
starting at the first boundary. -/
theorem spans_flatten (piece : List Nat) :
    ∀ parts : List Part, parts ≠ [] →
      (∀ k, k + 1 < parts.length → posAt parts k ≤ posAt parts (k + 1)) →
      posAt parts (parts.length - 1) = piece.length →
      ((parts.zip parts.tail).map (fun ab => spanOf piece ab.1.1 ab.2.1)).flatten =
        piece.drop (posAt parts 0) := by
  intro parts
  induction parts with
  | nil => intro h; exact absurd rfl h
  | cons p rest ih =>
    intro _ hmono hlast
    cases rest with
    | nil =>
      have : posAt [p] 0 = piece.length := by simpa using hlast
      rw [show ([p].zip [p].tail) = [] from rfl]
      rw [this, List.drop_length]
      rfl
    | cons q rest2 =>
      have hih := ih (by simp) (fun k hk => by
          have := hmono (k + 1) (by simpa using hk)
          rwa [posAt_cons_succ, posAt_cons_succ] at this)
        (by
          have h1 : (p :: q :: rest2).length - 1 = ((q :: rest2).length - 1) + 1 := by
            simp
          rw [h1, posAt_cons_succ] at hlast
          exact hlast)
      rw [show (p :: q :: rest2).zip (p :: q :: rest2).tail =
        (p, q) :: ((q :: rest2).zip (q :: rest2).tail) from rfl]
      rw [List.map_cons, List.flatten_cons, hih]
      have hq0 : posAt (q :: rest2) 0 = q.1 := rfl
      have hp0 : posAt (p :: q :: rest2) 0 = p.1 := rfl
      rw [hq0, hp0]
      exact spanOf_append_drop piece p.1 q.1 (by
        have := hmono 0 (by simp)
        exact this)

theorem byte_pair_merge_inv (ranks : Ranks) (piece : List Nat)
    (hlen : 2 ≤ piece.length) (hsingle : ∀ b ∈ piece, (ranks [b]).isSome) :
    PartsInv ranks piece (_byte_pair_merge ranks piece) := by
  unfold _byte_pair_merge
  exact bpeMergeLoop_inv ranks piece (initParts ranks piece).length
    (initParts ranks piece) (Nat.le_refl _)
    (initParts_inv ranks piece hlen hsingle)

theorem byte_pair_encode_decodes (ranks : Ranks) (dec sdec : Nat → Option (List Nat))
    (piece : List Nat) (hlen : 2 ≤ piece.length)
    (hsingle : ∀ b ∈ piece, (ranks [b]).isSome)
    (hinvdec : ∀ bs r, ranks bs = some r → dec r = some bs) :
    ∃ ts, byte_pair_encode piece ranks = some ts ∧
      decodeBytes dec sdec ts = some piece := by
  have hinv := byte_pair_merge_inv ranks piece hlen hsingle
  rcases zip_decode ranks dec sdec piece hinvdec (_byte_pair_merge ranks piece)
    hinv.span_ok with ⟨ts, hts, hdec⟩
  refine ⟨ts, ?_, ?_⟩
  · unfold byte_pair_encode
    rw [if_neg (by omega), hts]
  · unfold decodeBytes
    rw [hdec]
    have hfl := spans_flatten piece (_byte_pair_merge ranks piece) hinv.ne
      (fun k hk => Nat.le_of_lt (hinv.mono k hk)) hinv.last_pos
    rw [Option.map_some', hfl, hinv.head_pos, List.drop_zero]

theorem encode_piece_decodes (ranks : Ranks) (dec sdec : Nat → Option (List Nat))
    (piece : List Nat) (hne : piece ≠ [])
    (hsingle : ∀ b ∈ piece, (ranks [b]).isSome)
    (hinvdec : ∀ bs r, ranks bs = some r → dec r = some bs) :
    ∃ ts, (match ranks piece with
           | some token => some [token]
           | none => byte_pair_encode piece ranks) = some ts ∧
      decodeBytes dec sdec ts = some piece := by
  cases hr : ranks piece with
  | some t =>
    refine ⟨[t], rfl, ?_⟩
    unfold decodeBytes
    rw [List.mapM_cons, List.mapM_nil]
    have hd : decodeOne dec sdec t = some piece := by
      unfold decodeOne
      rw [hinvdec _ _ hr]
    rw [hd]
    simp
  | none =>
    have hlen2 : 2 ≤ piece.length := by
      by_contra hx
      push_neg at hx
      have h01 : piece.length = 0 ∨ piece.length = 1 := by omega
      rcases h01 with h0 | h1
      · exact hne (List.length_eq_zero.1 h0)
      · rcases List.length_eq_one.1 h1 with ⟨b, rfl⟩
        have := hsingle b (by simp)
        rw [hr] at this
        simp at this
    exact byte_pair_encode_decodes ranks dec sdec piece hlen2 hsingle hinvdec

theorem decodeBytes_append (dec sdec : Nat → Option (List Nat))
    (t1 t2 b1 b2 : List Nat)
    (h1 : decodeBytes dec sdec t1 = some b1)
    (h2 : decodeBytes dec sdec t2 = some b2) :
    decodeBytes dec sdec (t1 ++ t2) = some (b1 ++ b2) := by
  unfold decodeBytes at *
  rcases Option.map_eq_some'.1 h1 with ⟨m1, hm1, hf1⟩
  rcases Option.map_eq_some'.1 h2 with ⟨m2, hm2, hf2⟩
  rw [List.mapM_append, hm1, hm2]
  show ((some (m1 ++ m2)).map List.flatten : Option (List Nat)) = some (b1 ++ b2)
  rw [Option.map_some', List.flatten_append, hf1, hf2]

theorem encode_pieces_decodes (ranks : Ranks) (dec sdec : Nat → Option (List Nat))
    (hinvdec : ∀ bs r, ranks bs = some r → dec r = some bs) :
    ∀ pieces : List (List Nat),
      (∀ p ∈ pieces, p ≠ []) →
      (∀ p ∈ pieces, ∀ b ∈ p, (ranks [b]).isSome) →
      ∃ tss : List (List Nat),
        pieces.mapM (fun piece =>
          match ranks piece with
          | some token => some [token]
          | none => byte_pair_encode piece ranks) = some tss ∧
        decodeBytes dec sdec tss.flatten = some pieces.flatten := by
  intro pieces
  induction pieces with
  | nil => intro _ _; exact ⟨[], rfl, rfl⟩
  | cons p rest ih =>
    intro hne hsingle
    rcases encode_piece_decodes ranks dec sdec p (hne p (by simp))
      (hsingle p (by simp)) hinvdec with ⟨tsp, hp, hdp⟩
    rcases ih (fun q hq => hne q (List.mem_cons_of_mem p hq))
      (fun q hq => hsingle q (List.mem_cons_of_mem p hq)) with ⟨tss, hrest, hdrest⟩
    refine ⟨tsp :: tss, ?_, ?_⟩
    · rw [List.mapM_cons, hp, hrest]
      rfl
    · rw [List.flatten_cons, List.flatten_cons]
      exact decodeBytes_append dec sdec tsp tss.flatten p rest.flatten hdp hdrest

/-- **C1**: round-trip.  For every input (its UTF-8 bytes `s`), given the
pre-tokenizer's pieces (non-empty matches concatenating to `s` — modelled
from the spec, see `encode_ordinary`), a vocabulary with every byte of `s`
as a single-byte key, and a decoder inverting the encoder (as
`CoreBPE::new_internal` builds and checks it), `encode_ordinary` succeeds
and `decode` maps its output back to exactly `s`. -/
theorem c1_round_trip (ranks : Ranks) (dec sdec : Nat → Option (List Nat))
    (pieces : List (List Nat)) (s : List Nat)
    (hcover : pieces.flatten = s)
    (hne : ∀ p ∈ pieces, p ≠ [])
    (hsingle : ∀ b ∈ s, (ranks [b]).isSome)
    (hinvdec : ∀ bs r, ranks bs = some r → dec r = some bs) :
    ∃ ts, encode_ordinary ranks pieces = some ts ∧
      decodeBytes dec sdec ts = some s := by
  subst hcover
  have hsing2 : ∀ p ∈ pieces, ∀ b ∈ p, (ranks [b]).isSome := fun p hp b hb =>
    hsingle b (List.mem_flatten.2 ⟨p, hp, hb⟩)
  rcases encode_pieces_decodes ranks dec sdec hinvdec pieces hne hsing2 with
    ⟨tss, hm, hd⟩
  refine ⟨tss.flatten, ?_, hd⟩
  unfold encode_ordinary
  rw [hm]
  rfl

/-- **C7**: for every non-empty piece whose individual bytes are all
single-byte vocabulary keys, every lookup `byte_pair_encode` performs while
emitting the final spans succeeds, so its panic branch is unreachable. -/
theorem c7_bpe_lookups_total (ranks : Ranks) (piece : List Nat)
    (hne : piece ≠ []) (hsingle : ∀ b ∈ piece, (ranks [b]).isSome) :
    (byte_pair_encode piece ranks).isSome := by
  unfold byte_pair_encode
  by_cases h1 : piece.length = 1
  · rw [if_pos h1]
    rcases List.length_eq_one.1 h1 with ⟨b, rfl⟩
    have hb := hsingle b (by simp)
    rcases Option.isSome_iff_exists.1 hb with ⟨t, ht⟩
    rw [ht]
    rfl
  · rw [if_neg h1]
    have hlen : 2 ≤ piece.length := by
      by_contra hx
      push_neg at hx
      have h0 : piece.length = 0 := by omega
      exact hne (List.length_eq_zero.1 h0)
    exact zip_mapM_isSome ranks piece (_byte_pair_merge ranks piece)
      (byte_pair_merge_inv ranks piece hlen hsingle).span_ok

/-- The toy vocabulary used by the tokenizer witnesses: single-byte keys
`[0]`, `[1]` and the pair key `[0, 1]`. -/
def ranksW : Ranks := fun bs =>
  if bs = [0] then some 0
  else if bs = [1] then some 1
  else if bs = [0, 1] then some 2
  else none

/-- The decoder inverse of `ranksW`. -/
def decW : Nat → Option (List Nat) := fun t =>
  if t = 0 then some [0]
  else if t = 1 then some [1]
  else if t = 2 then some [0, 1]
  else none

/-- An empty special-token decoder. -/
def sdecW : Nat → Option (List Nat) := fun _ => none

theorem ranksW_inv : ∀ bs r, ranksW bs = some r → decW r = some bs := by
  intro bs r h
  unfold ranksW at h
  split_ifs at h with h1 h2 h3
  · injection h with h4
    subst h4
    subst h1
    rfl
  · injection h with h4
    subst h4
    subst h2
    rfl
  · injection h with h4
    subst h4
    subst h3
    rfl

/-- Witness for `c1_round_trip` on the concrete piece list `[[0, 1]]`. -/
theorem c1_witness :
    ∃ ts, encode_ordinary ranksW [[0, 1]] = some ts ∧
      decodeBytes decW sdecW ts = some [0, 1] :=
  c1_round_trip ranksW decW sdecW [[0, 1]] [0, 1] (by decide) (by decide)
    (by decide) ranksW_inv

/-- Witness for `c7_bpe_lookups_total` on the concrete piece `[0, 1]`. -/
theorem c7_witness : (byte_pair_encode [0, 1] ranksW).isSome :=
  c7_bpe_lookups_total ranksW [0, 1] (by decide) (by decide)

end RustyChunker
